import Mathlib

/-!
Verification of the CLOCK-PRO cache shard (`src/shard.rs` of quick-cache).

The shard is shallowly embedded: keys, versions, values and hashes are `Nat`,
the weighter and the hash builder are function fields of the state, the entry
slab is an association list from tokens to entries, the hash index is a list
of `(hash, token)` pairs, and each of the three intrusive rings (HOT, COLD,
GHOST) is a list of tokens whose first element is the ring head and whose
order is clock-traversal order.  Linking a slot "adjacent to the head" of a
ring (the `LinkedSlab` contract, modelled from the spec since
`linked_slab.rs` is not among the provided sources) appends the token at the
end of the traversal order, and advancing a ring head to its successor
rotates the list.  The unbounded clock-walk loops of the source are embedded
with explicit fuel; a `none` result models a Rust panic or an exhausted
fuel, and fuel sufficiency on well-formed states is proved separately.
-/

set_option maxRecDepth 20000

namespace QuickCache

inductive ResidentState where
  | Hot
  | ColdInTest
  | ColdDemoted
  deriving DecidableEq, Repr

/-- Resident entry of the shard: key, version, value, clock state and the
reference bit (an `AtomicBool` in the source, plain `Bool` here). -/
structure Resident where
  key : Nat
  version : Nat
  value : Nat
  state : ResidentState
  referenced : Bool
  deriving DecidableEq, Repr

/-- Entries are either resident (`Ok(Resident)` in the source) or ghost
(`Err(hash)` in the source). -/
inductive Entry where
  | res (r : Resident)
  | ghost (hash : Nat)
  deriving DecidableEq, Repr

/-- State of `VersionedCacheShard`.  `hashB` models the hash builder,
`weighter` the weight callback, `entries` the `LinkedSlab`, `mapIdx` the
`RawTable<Token>`, and the three ring lists model the intrusive lists headed
by `hot_head`, `cold_head` and `ghost_head`. -/
structure Shard where
  hashB : Nat → Nat → Nat
  weighter : Nat → Nat → Nat → Nat
  entries : List (Nat × Entry)
  nextTok : Nat
  mapIdx : List (Nat × Nat)
  hotRing : List Nat
  coldRing : List Nat
  ghostRing : List Nat
  weight_target_hot : Nat
  weight_capacity : Nat
  weight_hot : Nat
  weight_cold : Nat
  num_hot : Nat
  num_cold : Nat
  num_non_resident : Nat
  capacity_non_resident : Nat
  hits : Nat
  misses : Nat

/-- Slot lookup in the slab (`entries.get`). -/
def slabGet : List (Nat × Entry) → Nat → Option Entry
  | [], _ => none
  | p :: rest, t => if p.1 = t then some p.2 else slabGet rest t

/-- In-place slot update in the slab (`entries.get_mut` followed by a
write). -/
def slabSet : List (Nat × Entry) → Nat → Entry → List (Nat × Entry)
  | [], _, _ => []
  | p :: rest, t, e => if p.1 = t then (t, e) :: rest else p :: slabSet rest t e

/-- Freeing a slot in the slab (`entries.remove`). -/
def slabRemove : List (Nat × Entry) → Nat → List (Nat × Entry)
  | [], _ => []
  | p :: rest, t => if p.1 = t then rest else p :: slabRemove rest t

/-- First index in the hash table stored under `hash` and satisfying the
equality closure (`RawTable::get`). -/
def mapFind : List (Nat × Nat) → Nat → (Nat → Bool) → Option Nat
  | [], _, _ => none
  | q :: rest, hash, p => if q.1 == hash && p q.2 then some q.2 else mapFind rest hash p

/-- Erase the table entry for `(hash, tok)` (`RawTable::erase_entry` as used
by `remove_from_map`). -/
def mapErase : List (Nat × Nat) → Nat → Nat → List (Nat × Nat)
  | [], _, _ => []
  | q :: rest, hash, tok =>
    if q.1 = hash ∧ q.2 = tok then rest else q :: mapErase rest hash tok

/-- Weight of a resident, `self.weighter.weight(&r.key, &r.version,
&r.value) as u64`. -/
def weightOfR (s : Shard) (r : Resident) : Nat :=
  s.weighter r.key r.version r.value

/-- Total resident weight, `weight_hot + weight_cold` (the `weight` getter
of the source). -/
def totalWeight (s : Shard) : Nat :=
  s.weight_hot + s.weight_cold

/-- Equality closure of `search`: key and version comparison for residents,
hash comparison for ghosts. -/
def searchEq (s : Shard) (hash key version t : Nat) : Bool :=
  match slabGet s.entries t with
  | some (.res r) => r.key == key && r.version == version
  | some (.ghost g) => g == hash
  | none => false

/-- The `search` probe of the source. -/
def search (s : Shard) (hash key version : Nat) : Option Nat :=
  mapFind s.mapIdx hash (searchEq s hash key version)

/-- Equality closure of `search_collision`: hash-only comparison, excluding
the original token. -/
def collEq (s : Shard) (hash orig t : Nat) : Bool :=
  if t == orig then false
  else
    match slabGet s.entries t with
    | some (.res r) => s.hashB r.key r.version == hash
    | some (.ghost g) => g == hash
    | none => false

/-- The `search_collision` probe of the source. -/
def search_collision (s : Shard) (hash orig : Nat) : Option Nat :=
  mapFind s.mapIdx hash (collEq s hash orig)

/-- The `get` operation: on a hit at a resident it sets the reference bit,
bumps `hits` and returns the value; otherwise it bumps `misses`.  The
counters are `u64`, hence the reduction modulo `2 ^ 64`. -/
def get (s : Shard) (hash key version : Nat) : Option Nat × Shard :=
  match search s hash key version with
  | some idx =>
    match slabGet s.entries idx with
    | some (.res r) =>
      (some r.value,
        { s with
          entries := slabSet s.entries idx (.res { r with referenced := true })
          hits := (s.hits + 1) % 2 ^ 64 })
    | _ => (none, { s with misses := (s.misses + 1) % 2 ^ 64 })
  | none => (none, { s with misses := (s.misses + 1) % 2 ^ 64 })

/-- The `peek` operation: a pure probe with no side effects. -/
def peek (s : Shard) (hash key version : Nat) : Option Nat :=
  match search s hash key version with
  | some idx =>
    match slabGet s.entries idx with
    | some (.res r) => some r.value
    | _ => none
  | none => none

/-- The `reserve` operation only pre-grows the hash table, which has no
observable effect on the logical state. -/
def reserve (s : Shard) (_additional : Nat) : Shard := s

/-- The `remove` operation.  `some (none, s)` is a miss, `some (some e, s1)`
returns the removed entry, `none` models an internal panic (dead code on
well-formed states). -/
def remove (s : Shard) (hash key version : Nat) : Option (Option Entry × Shard) :=
  match search s hash key version with
  | none => some (none, s)
  | some idx =>
    let s1 : Shard := { s with mapIdx := mapErase s.mapIdx hash idx }
    match slabGet s1.entries idx with
    | none => none
    | some e =>
      let s2 : Shard := { s1 with entries := slabRemove s1.entries idx }
      match e with
      | .res r =>
        if r.state = ResidentState.Hot then
          some (some e,
            { s2 with
              num_hot := s2.num_hot - 1
              weight_hot := s2.weight_hot - weightOfR s2 r
              hotRing := s2.hotRing.erase idx })
        else
          some (some e,
            { s2 with
              num_cold := s2.num_cold - 1
              weight_cold := s2.weight_cold - weightOfR s2 r
              coldRing := s2.coldRing.erase idx })
      | .ghost _ =>
        some (some e,
          { s2 with
            num_non_resident := s2.num_non_resident - 1
            ghostRing := s2.ghostRing.erase idx })

/-- The `advance_hot` clock walk with explicit fuel.  A referenced head has
its bit cleared and the head advances; otherwise the head is demoted to
`ColdDemoted` and relinked from HOT to COLD. -/
def advance_hot : Nat → Shard → Option Shard
  | 0, _ => none
  | fuel + 1, s =>
    match s.hotRing with
    | [] => none
    | idx :: rest =>
      match slabGet s.entries idx with
      | some (.res r) =>
        if r.referenced then
          advance_hot fuel
            { s with
              entries := slabSet s.entries idx (.res { r with referenced := false })
              hotRing := rest ++ [idx] }
        else
          some
            { s with
              entries := slabSet s.entries idx (.res { r with state := .ColdDemoted })
              num_hot := s.num_hot - 1
              num_cold := s.num_cold + 1
              weight_hot := s.weight_hot - weightOfR s r
              weight_cold := s.weight_cold + weightOfR s r
              hotRing := rest
              coldRing := s.coldRing ++ [idx] }
      | _ => none

/-- The `advance_ghost` step: drop the GHOST head, erase its hash from the
index and unlink it.  The source does not free the slot. -/
def advance_ghost (s : Shard) : Option Shard :=
  match s.ghostRing with
  | [] => none
  | idx :: rest =>
    match slabGet s.entries idx with
    | some (.ghost g) =>
      some
        { s with
          num_non_resident := s.num_non_resident - 1
          mapIdx := mapErase s.mapIdx g idx
          ghostRing := rest }
    | _ => none

/-- The `advance_cold` clock walk with explicit fuel, returning the evicted
resident.  A referenced `ColdInTest` head is promoted to HOT (followed by
one `advance_hot` when the hot weight exceeds the target); a referenced
`ColdDemoted` head gets a new test period; an unreferenced head is evicted,
leaving a ghost when it was `ColdInTest` and its hash does not collide. -/
def advance_cold : Nat → Shard → Option (Shard × Resident)
  | 0, _ => none
  | fuel + 1, s =>
    match s.coldRing with
    | [] => none
    | idx :: rest =>
      match slabGet s.entries idx with
      | some (.res r) =>
        if r.referenced then
          if r.state = ResidentState.ColdInTest then
            let w := weightOfR s r
            let s1 : Shard :=
              { s with
                entries := slabSet s.entries idx (.res { r with referenced := false, state := .Hot })
                num_hot := s.num_hot + 1
                num_cold := s.num_cold - 1
                weight_hot := s.weight_hot + w
                weight_cold := s.weight_cold - w
                coldRing := rest
                hotRing := s.hotRing ++ [idx] }
            if s1.weight_target_hot < s1.weight_hot then
              match advance_hot (s1.hotRing.length + 1) s1 with
              | some s2 => advance_cold fuel s2
              | none => none
            else
              advance_cold fuel s1
          else
            advance_cold fuel
              { s with
                entries := slabSet s.entries idx (.res { r with referenced := false, state := .ColdInTest })
                coldRing := rest ++ [idx] }
        else
          let w := weightOfR s r
          let hash := s.hashB r.key r.version
          let s1 : Shard :=
            { s with
              entries := slabSet s.entries idx (.ghost hash)
              num_cold := s.num_cold - 1
              weight_cold := s.weight_cold - w }
          if r.state = ResidentState.ColdInTest ∧ search_collision s1 hash idx = none then
            let s2 : Shard :=
              { s1 with
                num_non_resident := s1.num_non_resident + 1
                coldRing := rest
                ghostRing := s1.ghostRing ++ [idx] }
            if s2.capacity_non_resident < s2.num_non_resident then
              match advance_ghost s2 with
              | some s3 => some (s3, r)
              | none => none
            else
              some (s2, r)
          else
            let s2 : Shard :=
              { s1 with
                mapIdx := mapErase s1.mapIdx hash idx
                entries := slabRemove s1.entries idx
                coldRing := rest }
            some (s2, r)
      | _ => none

/-- The hot loop at the head of `evict`: demote hot entries while the hot
weight exceeds the target or COLD is empty. -/
def evictHotLoop : Nat → Shard → Option Shard
  | 0, _ => none
  | fuel + 1, s =>
    if s.weight_target_hot < s.weight_hot ∨ s.coldRing = [] then
      match advance_hot (s.hotRing.length + 1) s with
      | some s1 => evictHotLoop fuel s1
      | none => none
    else
      some s

/-- The `evict` operation: trim HOT, then evict one cold entry. -/
def evict (s : Shard) : Option (Shard × Resident) :=
  match evictHotLoop (s.hotRing.length + 1) s with
  | some s1 => advance_cold (s1.entries.length + 1) s1
  | none => none

/-- The trailing loop of `insert_existing`: evict while the cache is too
big, remembering the last evicted resident. -/
def insertExistingLoop : Nat → Option Resident → Shard → Option (Option Resident × Shard)
  | 0, _, _ => none
  | fuel + 1, ev, s =>
    if s.weight_capacity < s.weight_hot + s.weight_cold then
      match evict s with
      | some (s1, r) => insertExistingLoop fuel (some r) s1
      | none => none
    else
      some (ev, s)

/-- The `insert_existing` path of `insert`: update a resident in place or
resurrect a ghost, then drain any excess weight. -/
def insert_existing (s : Shard) (idx key version value weight : Nat) :
    Option (Option Resident × Shard) :=
  match slabGet s.entries idx with
  | none => none
  | some (.res r) =>
    let evicted_weight := weightOfR s r
    let s1 : Shard :=
      if r.state = ResidentState.Hot then
        { s with weight_hot := s.weight_hot - evicted_weight + weight }
      else
        { s with weight_cold := s.weight_cold - evicted_weight + weight }
    let s2 : Shard :=
      { s1 with
        entries := slabSet s1.entries idx
          (.res { key := key, version := version, value := value,
                  state := r.state, referenced := true }) }
    insertExistingLoop (s2.num_hot + s2.num_cold + 1) (some r) s2
  | some (.ghost _) =>
    let s2 : Shard :=
      { s with
        entries := slabSet s.entries idx
          (.res { key := key, version := version, value := value,
                  state := .Hot, referenced := false })
        num_non_resident := s.num_non_resident - 1
        num_hot := s.num_hot + 1
        weight_hot := s.weight_hot + weight
        ghostRing := s.ghostRing.erase idx
        hotRing := s.hotRing ++ [idx] }
    insertExistingLoop (s2.num_hot + s2.num_cold + 1) none s2

/-- The eviction loop of `insert` for a new entry that does not fit: evict
at least once, until the new weight fits. -/
def insertEvictLoop : Nat → Nat → Shard → Option (Resident × Shard)
  | 0, _, _ => none
  | fuel + 1, w, s =>
    match evict s with
    | some (s1, r) =>
      if s1.weight_hot + s1.weight_cold + w ≤ s1.weight_capacity then some (r, s1)
      else insertEvictLoop fuel w s1
    | none => none

/-- Admission tail of `insert`: create the resident with a cleared reference
bit, link it into the chosen ring and index it. -/
def insertAdmit (s : Shard) (hash key version value weight : Nat) (enterHot : Bool) : Shard :=
  let idx := s.nextTok
  let r : Resident :=
    { key := key, version := version, value := value,
      state := if enterHot then .Hot else .ColdInTest, referenced := false }
  let s1 : Shard :=
    if enterHot then
      { s with num_hot := s.num_hot + 1, weight_hot := s.weight_hot + weight,
               hotRing := s.hotRing ++ [idx] }
    else
      { s with num_cold := s.num_cold + 1, weight_cold := s.weight_cold + weight,
               coldRing := s.coldRing ++ [idx] }
  { s1 with
    entries := s1.entries ++ [(idx, Entry.res r)]
    nextTok := s1.nextTok + 1
    mapIdx := (hash, idx) :: s1.mapIdx }

/-- The public `insert` operation of the shard. -/
def insert (s : Shard) (hash key version value : Nat) : Option (Option Resident × Shard) :=
  let weight := s.weighter key version value
  if s.weight_capacity - s.weight_target_hot < weight then
    some (none, s)
  else
    match search s hash key version with
    | some idx => insert_existing s idx key version value weight
    | none =>
      if s.weight_capacity < s.weight_hot + s.weight_cold + weight then
        match insertEvictLoop (s.num_hot + s.num_cold + 1) weight s with
        | some (r, s1) => some (some r, insertAdmit s1 hash key version value weight false)
        | none => none
      else
        let enterHot := s.weight_hot + weight ≤ s.weight_target_hot
        if enterHot then
          some (none, insertAdmit s hash key version value weight true)
        else
          let s0 : Shard :=
            { s with
              capacity_non_resident :=
                ((s.weight_hot + s.weight_hot / 8) / s.num_hot) / 2 }
          some (none, insertAdmit s0 hash key version value weight false)

/-- `VersionedCacheShard::new`. -/
def newShard (max_capacity : Nat) (weighter : Nat → Nat → Nat → Nat)
    (hashB : Nat → Nat → Nat) : Shard :=
  let cap := max max_capacity 2
  { hashB := hashB
    weighter := weighter
    entries := []
    nextTok := 0
    mapIdx := []
    hotRing := []
    coldRing := []
    ghostRing := []
    weight_target_hot := cap - max (cap / 100) 1
    weight_capacity := cap
    weight_hot := 0
    weight_cold := 0
    num_hot := 0
    num_cold := 0
    num_non_resident := 0
    capacity_non_resident := 0
    hits := 0
    misses := 0 }

/-- Public operations of the shard, as issued through the cache facade,
which computes the hash of the key and version with the hash builder. -/
inductive Op where
  | insert (key version value : Nat)
  | remove (key version : Nat)
  | get (key version : Nat)
  | peek (key version : Nat)
  | reserve (n : Nat)
  deriving DecidableEq, Repr

/-- Apply one public operation; `none` models a panic. -/
def applyOp (s : Shard) : Op → Option Shard
  | .insert k v val => (insert s (s.hashB k v) k v val).map Prod.snd
  | .remove k v => (remove s (s.hashB k v) k v).map Prod.snd
  | .get k v => some (get s (s.hashB k v) k v).snd
  | .peek _ _ => some s
  | .reserve n => some (reserve s n)

/-- Run a sequence of public operations. -/
def runOps : Shard → List Op → Option Shard
  | s, [] => some s
  | s, op :: rest =>
    match applyOp s op with
    | some s1 => runOps s1 rest
    | none => none

/-! Helper functions used by the invariants: per-token weight, aggregate
ring weight, and reference-bit counts. -/

/-- Weight contributed by the slot `t`: the weighter applied to a resident,
`0` for a ghost or a free slot. -/
def tokW (w : Nat → Nat → Nat → Nat) (l : List (Nat × Entry)) (t : Nat) : Nat :=
  match slabGet l t with
  | some (.res r) => w r.key r.version r.value
  | _ => 0

/-- Aggregate weight of a ring. -/
def ringW (w : Nat → Nat → Nat → Nat) (l : List (Nat × Entry)) (ring : List Nat) : Nat :=
  (ring.map (tokW w l)).sum

/-- Reference-bit contribution of an entry. -/
def refVal : Entry → Nat
  | .res r => if r.referenced then 1 else 0
  | .ghost _ => 0

/-- Reference-bit contribution of the slot `t`. -/
def refTok (l : List (Nat × Entry)) (t : Nat) : Nat :=
  match slabGet l t with
  | some e => refVal e
  | none => 0

/-- Number of set reference bits on a ring. -/
def ringRef (l : List (Nat × Entry)) (ring : List Nat) : Nat :=
  (ring.map (refTok l)).sum

/-- Number of set reference bits in the whole slab. -/
def refC (l : List (Nat × Entry)) : Nat :=
  (l.map (fun p => refVal p.2)).sum

/-! Basic lemmas about the slab association list. -/

theorem slabGet_slabSet_self {l : List (Nat × Entry)} {t : Nat} {e0 e : Entry}
    (h : slabGet l t = some e0) : slabGet (slabSet l t e) t = some e := by
  induction l with
  | nil => simp [slabGet] at h
  | cons p rest ih =>
    by_cases hp : p.1 = t
    · simp [slabGet, slabSet, hp]
    · simp only [slabGet, slabSet, hp, if_false, if_neg hp] at h ⊢
      exact ih h

theorem slabGet_slabSet_ne {l : List (Nat × Entry)} {t u : Nat} (e : Entry)
    (h : u ≠ t) : slabGet (slabSet l t e) u = slabGet l u := by
  induction l with
  | nil => simp [slabSet]
  | cons p rest ih =>
    by_cases hp : p.1 = t
    · subst hp
      have hne : ¬ p.1 = u := fun hh => h hh.symm
      simp [slabSet, slabGet, hne]
    · by_cases hu : p.1 = u
      · simp only [slabSet, if_neg hp, slabGet, if_pos hu]
      · simp [slabGet, slabSet, hp, hu, ih]

theorem slabSet_keys (l : List (Nat × Entry)) (t : Nat) (e : Entry) :
    (slabSet l t e).map Prod.fst = l.map Prod.fst := by
  induction l with
  | nil => rfl
  | cons p rest ih =>
    by_cases hp : p.1 = t
    · simp [slabSet, hp]
    · simp [slabSet, hp, ih]

theorem slabGet_mem_keys {l : List (Nat × Entry)} {t : Nat} {e : Entry}
    (h : slabGet l t = some e) : t ∈ l.map Prod.fst := by
  induction l with
  | nil => simp [slabGet] at h
  | cons p rest ih =>
    by_cases hp : p.1 = t
    · simp only [List.map_cons, List.mem_cons]
      exact Or.inl hp.symm
    · simp only [slabGet, if_neg hp] at h
      simp only [List.map_cons, List.mem_cons]
      exact Or.inr (ih h)

theorem slabGet_append_left {l l2 : List (Nat × Entry)} {t : Nat} {e : Entry}
    (h : slabGet l t = some e) : slabGet (l ++ l2) t = some e := by
  induction l with
  | nil => simp [slabGet] at h
  | cons p rest ih =>
    by_cases hp : p.1 = t
    · simp only [slabGet, if_pos hp] at h
      simp only [List.cons_append, slabGet, if_pos hp]
      exact h
    · simp only [List.cons_append, slabGet, if_neg hp] at h ⊢
      exact ih h

theorem slabGet_append_right {l l2 : List (Nat × Entry)} {t : Nat}
    (h : slabGet l t = none) : slabGet (l ++ l2) t = slabGet l2 t := by
  induction l with
  | nil => simp
  | cons p rest ih =>
    by_cases hp : p.1 = t
    · simp [slabGet, hp] at h
    · simp only [List.cons_append, slabGet, if_neg hp] at h ⊢
      exact ih h

theorem slabGet_none_of_not_mem {l : List (Nat × Entry)} {t : Nat}
    (h : t ∉ l.map Prod.fst) : slabGet l t = none := by
  induction l with
  | nil => rfl
  | cons p rest ih =>
    simp only [List.map_cons, List.mem_cons] at h
    push_neg at h
    simp only [slabGet, if_neg (fun hh : p.1 = t => h.1 hh.symm)]
    exact ih h.2

theorem slabRemove_sublist (l : List (Nat × Entry)) (t : Nat) :
    List.Sublist (slabRemove l t) l := by
  induction l with
  | nil => simp [slabRemove]
  | cons p rest ih =>
    by_cases hp : p.1 = t
    · simpa [slabRemove, hp] using List.sublist_cons_self p rest
    · simpa [slabRemove, hp] using List.Sublist.cons₂ p ih

theorem slabGet_slabRemove_ne {l : List (Nat × Entry)} {t u : Nat}
    (h : u ≠ t) : slabGet (slabRemove l t) u = slabGet l u := by
  induction l with
  | nil => rfl
  | cons p rest ih =>
    by_cases hp : p.1 = t
    · subst hp
      have hne : ¬ p.1 = u := fun hh => h hh.symm
      simp [slabRemove, slabGet, hne]
    · by_cases hu : p.1 = u
      · simp only [slabRemove, if_neg hp, slabGet, if_pos hu]
      · simp [slabRemove, slabGet, hp, hu, ih]

theorem slabRemove_length {l : List (Nat × Entry)} {t : Nat} {e : Entry}
    (h : slabGet l t = some e) : (slabRemove l t).length + 1 = l.length := by
  induction l with
  | nil => simp [slabGet] at h
  | cons p rest ih =>
    by_cases hp : p.1 = t
    · simp [slabRemove, hp]
    · simp only [slabGet, if_neg hp] at h
      simp [slabRemove, hp, ← ih h]

/-! Basic lemmas about the hash index list. -/

theorem mapFind_some {m : List (Nat × Nat)} {hash : Nat} {p : Nat → Bool} {t : Nat}
    (h : mapFind m hash p = some t) : (hash, t) ∈ m ∧ p t = true := by
  induction m with
  | nil => simp [mapFind] at h
  | cons q rest ih =>
    rcases q with ⟨qh, qt⟩
    by_cases hq : (qh == hash && p qt) = true
    · simp only [mapFind, hq, if_true] at h
      cases h
      obtain ⟨h1, h2⟩ := Bool.and_eq_true_iff.mp hq
      have h1 : qh = hash := beq_iff_eq.mp h1
      subst h1
      exact ⟨List.mem_cons_self _ _, h2⟩
    · simp only [mapFind, hq, if_false] at h
      obtain ⟨h1, h2⟩ := ih h
      exact ⟨List.mem_cons_of_mem _ h1, h2⟩

theorem mapErase_sublist (m : List (Nat × Nat)) (h t : Nat) :
    List.Sublist (mapErase m h t) m := by
  induction m with
  | nil => simp [mapErase]
  | cons q rest ih =>
    by_cases hq : q.1 = h ∧ q.2 = t
    · simpa [mapErase, hq] using List.sublist_cons_self q rest
    · simpa [mapErase, hq] using List.Sublist.cons₂ q ih

theorem mapErase_clears_tok {m : List (Nat × Nat)} {h t : Nat}
    (hnd : (m.map Prod.snd).Nodup) (hh : ∀ q ∈ m, q.2 = t → q.1 = h) :
    ∀ q ∈ mapErase m h t, q.2 ≠ t := by
  induction m with
  | nil => simp [mapErase]
  | cons q0 rest ih =>
    simp only [List.map_cons, List.nodup_cons] at hnd
    by_cases hq : q0.1 = h ∧ q0.2 = t
    · intro q hq2 hq3
      simp only [mapErase, if_pos hq] at hq2
      have hm : q.2 ∈ rest.map Prod.snd := List.mem_map_of_mem Prod.snd hq2
      rw [hq3, ← hq.2] at hm
      exact hnd.1 hm
    · intro q hq2 hq3
      simp only [mapErase, if_neg hq] at hq2
      rcases List.mem_cons.mp hq2 with h1 | h1
      · subst h1
        exact hq ⟨hh q (List.mem_cons_self _ _) hq3, hq3⟩
      · exact ih hnd.2 (fun q2 hq4 => hh q2 (List.mem_cons_of_mem _ hq4)) q h1 hq3

/-! Lemmas about ring weights and reference counts. -/

theorem tokW_congr {w : Nat → Nat → Nat → Nat} {l1 l2 : List (Nat × Entry)} {t : Nat}
    (h : slabGet l1 t = slabGet l2 t) : tokW w l1 t = tokW w l2 t := by
  simp [tokW, h]

theorem refTok_congr {l1 l2 : List (Nat × Entry)} {t : Nat}
    (h : slabGet l1 t = slabGet l2 t) : refTok l1 t = refTok l2 t := by
  simp [refTok, h]

theorem ringW_nil (w : Nat → Nat → Nat → Nat) (l : List (Nat × Entry)) :
    ringW w l [] = 0 := rfl

theorem ringW_cons (w : Nat → Nat → Nat → Nat) (l : List (Nat × Entry)) (t : Nat)
    (ring : List Nat) : ringW w l (t :: ring) = tokW w l t + ringW w l ring := by
  simp [ringW]

theorem ringW_append (w : Nat → Nat → Nat → Nat) (l : List (Nat × Entry))
    (r1 r2 : List Nat) : ringW w l (r1 ++ r2) = ringW w l r1 + ringW w l r2 := by
  simp [ringW]

theorem ringW_congr {w : Nat → Nat → Nat → Nat} {l1 l2 : List (Nat × Entry)}
    {ring : List Nat} (h : ∀ t ∈ ring, slabGet l1 t = slabGet l2 t) :
    ringW w l1 ring = ringW w l2 ring := by
  unfold ringW
  rw [List.map_congr_left (fun t ht => tokW_congr (h t ht))]

theorem ringW_erase {w : Nat → Nat → Nat → Nat} {l : List (Nat × Entry)}
    {ring : List Nat} {t : Nat} (h : t ∈ ring) :
    ringW w l ring = tokW w l t + ringW w l (ring.erase t) := by
  unfold ringW
  rw [((List.perm_cons_erase h).map (tokW w l)).sum_eq]
  simp

theorem ringW_pos_nonempty {w : Nat → Nat → Nat → Nat} {l : List (Nat × Entry)}
    {ring : List Nat} (h : 1 ≤ ringW w l ring) : ring ≠ [] := by
  intro hh
  subst hh
  simp [ringW_nil] at h

theorem ringRef_nil (l : List (Nat × Entry)) : ringRef l [] = 0 := rfl

theorem ringRef_cons (l : List (Nat × Entry)) (t : Nat) (ring : List Nat) :
    ringRef l (t :: ring) = refTok l t + ringRef l ring := by
  simp [ringRef]

theorem ringRef_append (l : List (Nat × Entry)) (r1 r2 : List Nat) :
    ringRef l (r1 ++ r2) = ringRef l r1 + ringRef l r2 := by
  simp [ringRef]

theorem ringRef_congr {l1 l2 : List (Nat × Entry)} {ring : List Nat}
    (h : ∀ t ∈ ring, slabGet l1 t = slabGet l2 t) : ringRef l1 ring = ringRef l2 ring := by
  unfold ringRef
  rw [List.map_congr_left (fun t ht => refTok_congr (h t ht))]

theorem ringRef_le_length (l : List (Nat × Entry)) (ring : List Nat) :
    ringRef l ring ≤ ring.length := by
  induction ring with
  | nil => simp [ringRef_nil]
  | cons t rest ih =>
    have : refTok l t ≤ 1 := by
      unfold refTok
      cases hg : slabGet l t with
      | none => simp
      | some e => cases e with
        | res r => by_cases hr : r.referenced <;> simp [refVal, hr]
        | ghost g => simp [refVal]
    calc ringRef l (t :: rest) = refTok l t + ringRef l rest := ringRef_cons l t rest
    _ ≤ 1 + rest.length := Nat.add_le_add this ih
    _ = (t :: rest).length := by simp [Nat.add_comm]

theorem refC_append (l l2 : List (Nat × Entry)) : refC (l ++ l2) = refC l + refC l2 := by
  simp [refC]

theorem refC_cons (p : Nat × Entry) (l : List (Nat × Entry)) :
    refC (p :: l) = refVal p.2 + refC l := by
  simp [refC]

theorem refC_slabSet {l : List (Nat × Entry)} {t : Nat} {e0 : Entry} (e : Entry)
    (h : slabGet l t = some e0) :
    refC (slabSet l t e) + refVal e0 = refC l + refVal e := by
  induction l with
  | nil => simp [slabGet] at h
  | cons p rest ih =>
    by_cases hp : p.1 = t
    · simp only [slabGet, if_pos hp] at h
      cases h
      rw [show slabSet (p :: rest) t e = (t, e) :: rest from by simp [slabSet, hp]]
      rw [refC_cons, refC_cons]
      have hre : refVal (t, e).2 = refVal e := rfl
      rw [hre]
      omega
    · simp only [slabGet, if_neg hp] at h
      have hrec := ih h
      rw [show slabSet (p :: rest) t e = p :: slabSet rest t e from by simp [slabSet, hp]]
      rw [refC_cons, refC_cons]
      omega

theorem refC_slabRemove {l : List (Nat × Entry)} {t : Nat} {e0 : Entry}
    (h : slabGet l t = some e0) :
    refC (slabRemove l t) + refVal e0 = refC l := by
  induction l with
  | nil => simp [slabGet] at h
  | cons p rest ih =>
    by_cases hp : p.1 = t
    · simp only [slabGet, if_pos hp] at h
      cases h
      rw [show slabRemove (p :: rest) t = rest from by simp [slabRemove, hp]]
      rw [refC_cons]
      omega
    · simp only [slabGet, if_neg hp] at h
      have hrec := ih h
      rw [show slabRemove (p :: rest) t = p :: slabRemove rest t from by simp [slabRemove, hp]]
      rw [refC_cons, refC_cons]
      omega

theorem refVal_le_refC {l : List (Nat × Entry)} {t : Nat} {e : Entry}
    (h : slabGet l t = some e) : refVal e ≤ refC l := by
  induction l with
  | nil => simp [slabGet] at h
  | cons p rest ih =>
    by_cases hp : p.1 = t
    · simp only [slabGet, if_pos hp] at h
      cases h
      rw [refC_cons]
      omega
    · simp only [slabGet, if_neg hp] at h
      have hrec := ih h
      rw [refC_cons]
      omega

theorem refVal_le_one (e : Entry) : refVal e ≤ 1 := by
  cases e with
  | res r => by_cases hr : r.referenced <;> simp [refVal, hr]
  | ghost g => simp [refVal]

theorem refC_le_length (l : List (Nat × Entry)) : refC l ≤ l.length := by
  induction l with
  | nil => simp [refC]
  | cons p rest ih =>
    rw [refC_cons]
    have := refVal_le_one p.2
    simp only [List.length_cons]
    omega

/-! The well-formedness invariant of a shard state.  It relates the running
counters and weights to the ring contents, ties ring membership to the
stored entry states, and keeps the hash index consistent with the slab.
Tokens reachable through the index always sit in the ring dictated by their
entry; slots detached by `advance_ghost` (which unlinks but does not free)
are outside the index and outside every ring. -/

/-- Ring a token found through the hash index must occupy, according to its
entry. -/
def tokInRing (s : Shard) (t : Nat) : Entry → Prop
  | .res r => if r.state = ResidentState.Hot then t ∈ s.hotRing else t ∈ s.coldRing
  | .ghost _ => t ∈ s.ghostRing

/-- Hash under which the slot `t` is indexed. -/
def hashOfTok (s : Shard) (t : Nat) : Option Nat :=
  match slabGet s.entries t with
  | some (.res r) => some (s.hashB r.key r.version)
  | some (.ghost g) => some g
  | none => none

structure WF (s : Shard) : Prop where
  entNd : (s.entries.map Prod.fst).Nodup
  entFresh : ∀ t ∈ s.entries.map Prod.fst, t < s.nextTok
  hotOK : ∀ t ∈ s.hotRing, ∃ r : Resident,
    slabGet s.entries t = some (.res r) ∧ r.state = ResidentState.Hot
  coldOK : ∀ t ∈ s.coldRing, ∃ r : Resident,
    slabGet s.entries t = some (.res r) ∧ r.state ≠ ResidentState.Hot
  ghostOK : ∀ t ∈ s.ghostRing, ∃ g : Nat, slabGet s.entries t = some (.ghost g)
  hotNd : s.hotRing.Nodup
  coldNd : s.coldRing.Nodup
  ghostNd : s.ghostRing.Nodup
  numHot : s.num_hot = s.hotRing.length
  numCold : s.num_cold = s.coldRing.length
  numGhost : s.num_non_resident = s.ghostRing.length
  wHot : s.weight_hot = ringW s.weighter s.entries s.hotRing
  wCold : s.weight_cold = ringW s.weighter s.entries s.coldRing
  mapRing : ∀ q ∈ s.mapIdx, ∀ e, slabGet s.entries q.2 = some e → tokInRing s q.2 e
  mapHash : ∀ q ∈ s.mapIdx, hashOfTok s q.2 = some q.1
  mapNd : (s.mapIdx.map Prod.snd).Nodup
  statBudget : s.weight_capacity - s.weight_target_hot ≤ s.weight_target_hot
  statTargetPos : 1 ≤ s.weight_target_hot
  statTargetLe : s.weight_target_hot ≤ s.weight_capacity

theorem WF.hot_not_cold {s : Shard} (hs : WF s) {t : Nat}
    (h : t ∈ s.hotRing) : t ∉ s.coldRing := by
  intro hc
  obtain ⟨r, hr, hr2⟩ := hs.hotOK t h
  obtain ⟨r2, hr3, hr4⟩ := hs.coldOK t hc
  rw [hr] at hr3
  cases hr3
  exact hr4 hr2

theorem WF.hot_not_ghost {s : Shard} (hs : WF s) {t : Nat}
    (h : t ∈ s.hotRing) : t ∉ s.ghostRing := by
  intro hc
  obtain ⟨r, hr, hr2⟩ := hs.hotOK t h
  obtain ⟨g, hg⟩ := hs.ghostOK t hc
  rw [hr] at hg
  cases hg

theorem WF.cold_not_ghost {s : Shard} (hs : WF s) {t : Nat}
    (h : t ∈ s.coldRing) : t ∉ s.ghostRing := by
  intro hc
  obtain ⟨r, hr, hr2⟩ := hs.coldOK t h
  obtain ⟨g, hg⟩ := hs.ghostOK t hc
  rw [hr] at hg
  cases hg

theorem WF.hot_nonempty_of_weight {s : Shard} (hs : WF s)
    (h : 1 ≤ s.weight_hot) : s.hotRing ≠ [] :=
  ringW_pos_nonempty (by rw [← hs.wHot]; exact h)

theorem WF.cold_nonempty_of_weight {s : Shard} (hs : WF s)
    (h : 1 ≤ s.weight_cold) : s.coldRing ≠ [] :=
  ringW_pos_nonempty (by rw [← hs.wCold]; exact h)

theorem WF_hotRotate {s : Shard} {idx : Nat} {rest : List Nat} {r : Resident}
    (hs : WF s) (hhot : s.hotRing = idx :: rest)
    (hget : slabGet s.entries idx = some (.res r)) :
    WF { s with
      entries := slabSet s.entries idx (.res { r with referenced := false })
      hotRing := rest ++ [idx] } := by
  have hkeys : (slabSet s.entries idx (.res { r with referenced := false })).map Prod.fst
      = s.entries.map Prod.fst := slabSet_keys _ _ _
  have hgetSelf : slabGet (slabSet s.entries idx (.res { r with referenced := false })) idx
      = some (.res { r with referenced := false }) := slabGet_slabSet_self hget
  have hgetNe : ∀ u, u ≠ idx →
      slabGet (slabSet s.entries idx (.res { r with referenced := false })) u
      = slabGet s.entries u := fun u hu => slabGet_slabSet_ne _ hu
  have hidxHot : idx ∈ s.hotRing := by rw [hhot]; exact List.mem_cons_self _ _
  have hidxNotRest : idx ∉ rest := by
    have := hs.hotNd
    rw [hhot] at this
    exact (List.nodup_cons.mp this).1
  have hstate : r.state = ResidentState.Hot := by
    obtain ⟨r0, hr0, hst⟩ := hs.hotOK idx hidxHot
    rw [hget] at hr0
    cases hr0
    exact hst
  have hidxNotCold : idx ∉ s.coldRing := hs.hot_not_cold hidxHot
  have hidxNotGhost : idx ∉ s.ghostRing := hs.hot_not_ghost hidxHot
  constructor
  case entNd => rw [hkeys]; exact hs.entNd
  case entFresh => rw [hkeys]; exact hs.entFresh
  case hotOK =>
    intro t ht
    rcases List.mem_append.mp ht with ht1 | ht1
    · have hne : t ≠ idx := fun he => hidxNotRest (he ▸ ht1)
      obtain ⟨rt, hrt, hst⟩ := hs.hotOK t (by rw [hhot]; exact List.mem_cons_of_mem _ ht1)
      exact ⟨rt, by rw [hgetNe t hne]; exact hrt, hst⟩
    · have : t = idx := by simpa using ht1
      subst this
      exact ⟨{ r with referenced := false }, hgetSelf, hstate⟩
  case coldOK =>
    intro t ht
    have hne : t ≠ idx := fun he => hidxNotCold (he ▸ ht)
    obtain ⟨rt, hrt, hst⟩ := hs.coldOK t ht
    exact ⟨rt, by rw [hgetNe t hne]; exact hrt, hst⟩
  case ghostOK =>
    intro t ht
    have hne : t ≠ idx := fun he => hidxNotGhost (he ▸ ht)
    obtain ⟨g, hg⟩ := hs.ghostOK t ht
    exact ⟨g, by rw [hgetNe t hne]; exact hg⟩
  case hotNd =>
    exact (List.perm_append_singleton idx rest).nodup_iff.mpr (hhot ▸ hs.hotNd)
  case coldNd => exact hs.coldNd
  case ghostNd => exact hs.ghostNd
  case numHot =>
    have := hs.numHot
    rw [hhot] at this
    simpa using this
  case numCold => exact hs.numCold
  case numGhost => exact hs.numGhost
  case wHot =>
    have h1 : ringW s.weighter (slabSet s.entries idx (.res { r with referenced := false }))
        (rest ++ [idx])
        = ringW s.weighter s.entries rest + tokW s.weighter s.entries idx := by
      rw [ringW_append]
      have h2 : ringW s.weighter (slabSet s.entries idx (.res { r with referenced := false })) rest
          = ringW s.weighter s.entries rest :=
        ringW_congr (fun t ht => hgetNe t (fun he => hidxNotRest (he ▸ ht)))
      have h3 : tokW s.weighter (slabSet s.entries idx (.res { r with referenced := false })) idx
          = tokW s.weighter s.entries idx := by
        simp [tokW, hgetSelf, hget]
      rw [h2, ringW_cons, ringW_nil, h3]
      omega
    have h0 := hs.wHot
    rw [hhot, ringW_cons] at h0
    show s.weight_hot
      = ringW s.weighter (slabSet s.entries idx (.res { r with referenced := false }))
        (rest ++ [idx])
    rw [h1]
    omega
  case wCold =>
    have : ringW s.weighter (slabSet s.entries idx (.res { r with referenced := false })) s.coldRing
        = ringW s.weighter s.entries s.coldRing :=
      ringW_congr (fun t ht => hgetNe t (fun he => hidxNotCold (he ▸ ht)))
    rw [this]
    exact hs.wCold
  case mapRing =>
    intro q hq e hgetq
    by_cases hqi : q.2 = idx
    · rw [hqi, hgetSelf] at hgetq
      cases hgetq
      simp only [tokInRing, hstate, if_pos]
      rw [hqi]
      exact List.mem_append.mpr (Or.inr (by simp))
    · rw [hgetNe q.2 hqi] at hgetq
      have hold := hs.mapRing q hq e hgetq
      cases e with
      | res rt =>
        simp only [tokInRing] at hold ⊢
        by_cases hst2 : rt.state = ResidentState.Hot
        · rw [if_pos hst2] at hold ⊢
          rw [hhot] at hold
          rcases List.mem_cons.mp hold with h1 | h1
          · exact absurd h1 hqi
          · exact List.mem_append.mpr (Or.inl h1)
        · rw [if_neg hst2] at hold ⊢
          exact hold
      | ghost g => simpa [tokInRing] using hold
  case mapHash =>
    intro q hq
    have hold := hs.mapHash q hq
    by_cases hqi : q.2 = idx
    · rw [hqi] at hold ⊢
      simp only [hashOfTok, hget] at hold
      simp only [hashOfTok, hgetSelf]
      exact hold
    · simp only [hashOfTok, hgetNe q.2 hqi]
      exact hold
  case mapNd => exact hs.mapNd
  case statBudget => exact hs.statBudget
  case statTargetPos => exact hs.statTargetPos
  case statTargetLe => exact hs.statTargetLe

theorem WF_hotDemote {s : Shard} {idx : Nat} {rest : List Nat} {r : Resident}
    (hs : WF s) (hhot : s.hotRing = idx :: rest)
    (hget : slabGet s.entries idx = some (.res r)) :
    WF { s with
      entries := slabSet s.entries idx (.res { r with state := .ColdDemoted })
      num_hot := s.num_hot - 1
      num_cold := s.num_cold + 1
      weight_hot := s.weight_hot - weightOfR s r
      weight_cold := s.weight_cold + weightOfR s r
      hotRing := rest
      coldRing := s.coldRing ++ [idx] } := by
  have hkeys : (slabSet s.entries idx (.res { r with state := .ColdDemoted })).map Prod.fst
      = s.entries.map Prod.fst := slabSet_keys _ _ _
  have hgetSelf : slabGet (slabSet s.entries idx (.res { r with state := .ColdDemoted })) idx
      = some (.res { r with state := .ColdDemoted }) := slabGet_slabSet_self hget
  have hgetNe : ∀ u, u ≠ idx →
      slabGet (slabSet s.entries idx (.res { r with state := .ColdDemoted })) u
      = slabGet s.entries u := fun u hu => slabGet_slabSet_ne _ hu
  have hidxHot : idx ∈ s.hotRing := by rw [hhot]; exact List.mem_cons_self _ _
  have hidxNotRest : idx ∉ rest := by
    have := hs.hotNd
    rw [hhot] at this
    exact (List.nodup_cons.mp this).1
  have hidxNotCold : idx ∉ s.coldRing := hs.hot_not_cold hidxHot
  have hidxNotGhost : idx ∉ s.ghostRing := hs.hot_not_ghost hidxHot
  have htokW : tokW s.weighter (slabSet s.entries idx (.res { r with state := .ColdDemoted })) idx
      = weightOfR s r := by
    simp [tokW, hgetSelf, weightOfR]
  have htokWold : tokW s.weighter s.entries idx = weightOfR s r := by
    simp [tokW, hget, weightOfR]
  constructor
  case entNd => rw [hkeys]; exact hs.entNd
  case entFresh => rw [hkeys]; exact hs.entFresh
  case hotOK =>
    intro t ht
    have hne : t ≠ idx := fun he => hidxNotRest (he ▸ ht)
    obtain ⟨rt, hrt, hst⟩ := hs.hotOK t (by rw [hhot]; exact List.mem_cons_of_mem _ ht)
    exact ⟨rt, by rw [hgetNe t hne]; exact hrt, hst⟩
  case coldOK =>
    intro t ht
    rcases List.mem_append.mp ht with ht1 | ht1
    · have hne : t ≠ idx := fun he => hidxNotCold (he ▸ ht1)
      obtain ⟨rt, hrt, hst⟩ := hs.coldOK t ht1
      exact ⟨rt, by rw [hgetNe t hne]; exact hrt, hst⟩
    · have : t = idx := by simpa using ht1
      subst this
      exact ⟨{ r with state := .ColdDemoted }, hgetSelf, by simp⟩
  case ghostOK =>
    intro t ht
    have hne : t ≠ idx := fun he => hidxNotGhost (he ▸ ht)
    obtain ⟨g, hg⟩ := hs.ghostOK t ht
    exact ⟨g, by rw [hgetNe t hne]; exact hg⟩
  case hotNd =>
    have := hs.hotNd
    rw [hhot] at this
    exact (List.nodup_cons.mp this).2
  case coldNd =>
    simp [List.nodup_append, hs.coldNd, hidxNotCold]
  case ghostNd => exact hs.ghostNd
  case numHot =>
    have := hs.numHot
    rw [hhot] at this
    simp only [List.length_cons] at this
    show s.num_hot - 1 = rest.length
    omega
  case numCold =>
    have := hs.numCold
    show s.num_cold + 1 = (s.coldRing ++ [idx]).length
    simp [this]
  case numGhost => exact hs.numGhost
  case wHot =>
    have h2 : ringW s.weighter (slabSet s.entries idx (.res { r with state := .ColdDemoted })) rest
        = ringW s.weighter s.entries rest :=
      ringW_congr (fun t ht => hgetNe t (fun he => hidxNotRest (he ▸ ht)))
    have h0 := hs.wHot
    rw [hhot, ringW_cons, htokWold] at h0
    show s.weight_hot - weightOfR s r
      = ringW s.weighter (slabSet s.entries idx (.res { r with state := .ColdDemoted })) rest
    rw [h2]
    omega
  case wCold =>
    have h2 : ringW s.weighter (slabSet s.entries idx (.res { r with state := .ColdDemoted })) s.coldRing
        = ringW s.weighter s.entries s.coldRing :=
      ringW_congr (fun t ht => hgetNe t (fun he => hidxNotCold (he ▸ ht)))
    have h0 := hs.wCold
    show s.weight_cold + weightOfR s r
      = ringW s.weighter (slabSet s.entries idx (.res { r with state := .ColdDemoted }))
        (s.coldRing ++ [idx])
    rw [ringW_append, h2, ringW_cons, ringW_nil, htokW]
    omega
  case mapRing =>
    intro q hq e hgetq
    by_cases hqi : q.2 = idx
    · rw [hqi, hgetSelf] at hgetq
      cases hgetq
      simp only [tokInRing]
      rw [if_neg (by simp)]
      rw [hqi]
      exact List.mem_append.mpr (Or.inr (by simp))
    · rw [hgetNe q.2 hqi] at hgetq
      have hold := hs.mapRing q hq e hgetq
      cases e with
      | res rt =>
        simp only [tokInRing] at hold ⊢
        by_cases hst2 : rt.state = ResidentState.Hot
        · rw [if_pos hst2] at hold ⊢
          rw [hhot] at hold
          rcases List.mem_cons.mp hold with h1 | h1
          · exact absurd h1 hqi
          · exact h1
        · rw [if_neg hst2] at hold ⊢
          exact List.mem_append.mpr (Or.inl hold)
      | ghost g => simpa [tokInRing] using hold
  case mapHash =>
    intro q hq
    have hold := hs.mapHash q hq
    by_cases hqi : q.2 = idx
    · rw [hqi] at hold ⊢
      simp only [hashOfTok, hget] at hold
      simp only [hashOfTok, hgetSelf]
      exact hold
    · simp only [hashOfTok, hgetNe q.2 hqi]
      exact hold
  case mapNd => exact hs.mapNd
  case statBudget => exact hs.statBudget
  case statTargetPos => exact hs.statTargetPos
  case statTargetLe => exact hs.statTargetLe

/-- Facts provided by one successful `advance_hot` call. -/
structure HotStep (s s1 : Shard) : Prop where
  wf : WF s1
  hotLen : s1.hotRing.length + 1 = s.hotRing.length
  coldLen : s1.coldRing.length = s.coldRing.length + 1
  coldNe : s1.coldRing ≠ []
  total : s1.weight_hot + s1.weight_cold = s.weight_hot + s.weight_cold
  ref : refC s1.entries ≤ refC s.entries
  keys : s1.entries.map Prod.fst = s.entries.map Prod.fst
  ghostEq : s1.ghostRing = s.ghostRing
  numGhostEq : s1.num_non_resident = s.num_non_resident
  mapEq : s1.mapIdx = s.mapIdx
  hashBEq : s1.hashB = s.hashB
  wtrEq : s1.weighter = s.weighter
  targetEq : s1.weight_target_hot = s.weight_target_hot
  capEq : s1.weight_capacity = s.weight_capacity
  capNrEq : s1.capacity_non_resident = s.capacity_non_resident
  hitsEq : s1.hits = s.hits
  missesEq : s1.misses = s.misses
  tokEq : s1.nextTok = s.nextTok

theorem advance_hot_spec : ∀ (fuel : Nat) (s s1 : Shard),
    advance_hot fuel s = some s1 → WF s → HotStep s s1 := by
  intro fuel
  induction fuel with
  | zero => intro s s1 h; simp [advance_hot] at h
  | succ fuel ih =>
    intro s s1 h hs
    cases hhot : s.hotRing with
    | nil => simp [advance_hot, hhot] at h
    | cons idx rest =>
      simp only [advance_hot, hhot] at h
      cases hget : slabGet s.entries idx with
      | none => rw [hget] at h; simp at h
      | some e =>
        cases e with
        | ghost g => rw [hget] at h; simp at h
        | res r =>
          simp only [hget] at h
          by_cases href : r.referenced
          · rw [if_pos href] at h
            have hwfR := WF_hotRotate hs hhot hget
            have hstep := ih _ _ h hwfR
            have hrefC : refC (slabSet s.entries idx (.res { r with referenced := false })) + 1
                = refC s.entries := by
              have := refC_slabSet (l := s.entries) (t := idx)
                (.res { r with referenced := false }) hget
              simp [refVal, href] at this
              omega
            refine ⟨hstep.wf, ?_, ?_, hstep.coldNe, ?_, ?_, ?_, hstep.ghostEq,
              hstep.numGhostEq, hstep.mapEq, hstep.hashBEq, hstep.wtrEq,
              hstep.targetEq, hstep.capEq, hstep.capNrEq, hstep.hitsEq,
              hstep.missesEq, hstep.tokEq⟩
            · have h2 := hstep.hotLen
              dsimp only at h2
              rw [hhot]
              simp only [List.length_append, List.length_cons, List.length_nil] at h2 ⊢
              omega
            · exact hstep.coldLen
            · exact hstep.total
            · have h1 := hstep.ref
              dsimp only at h1
              omega
            · rw [hstep.keys]
              exact slabSet_keys _ _ _
          · rw [if_neg href] at h
            cases h
            have hwfD := WF_hotDemote hs hhot hget
            have hrefC : refC (slabSet s.entries idx (.res { r with state := .ColdDemoted }))
                = refC s.entries := by
              have := refC_slabSet (l := s.entries) (t := idx)
                (.res { r with state := .ColdDemoted }) hget
              simp only [refVal] at this
              omega
            have hw : weightOfR s r ≤ s.weight_hot := by
              have h0 := hs.wHot
              rw [hhot, ringW_cons] at h0
              have : tokW s.weighter s.entries idx = weightOfR s r := by
                simp [tokW, hget, weightOfR]
              omega
            refine ⟨hwfD, ?_, ?_, ?_, ?_, ?_, ?_, rfl, rfl, rfl, rfl, rfl, rfl, rfl,
              rfl, rfl, rfl, rfl⟩
            · simp [hhot]
            · simp
            · simp
            · show s.weight_hot - weightOfR s r + (s.weight_cold + weightOfR s r)
                = s.weight_hot + s.weight_cold
              omega
            · show refC (slabSet s.entries idx (.res { r with state := .ColdDemoted }))
                ≤ refC s.entries
              omega
            · exact slabSet_keys _ _ _

theorem advance_hot_isSome : ∀ (fuel : Nat) (s : Shard), WF s → s.hotRing ≠ [] →
    ringRef s.entries s.hotRing < fuel → (advance_hot fuel s).isSome := by
  intro fuel
  induction fuel with
  | zero => intro s _ _ hm; omega
  | succ fuel ih =>
    intro s hs hne hm
    cases hhot : s.hotRing with
    | nil => exact absurd hhot hne
    | cons idx rest =>
      obtain ⟨r, hget, hst⟩ := hs.hotOK idx (by rw [hhot]; exact List.mem_cons_self _ _)
      simp only [advance_hot, hhot, hget]
      by_cases href : r.referenced
      · rw [if_pos href]
        have hidxNotRest : idx ∉ rest := by
          have := hs.hotNd
          rw [hhot] at this
          exact (List.nodup_cons.mp this).1
        apply ih
        · exact WF_hotRotate hs hhot hget
        · show rest ++ [idx] ≠ []
          simp
        · show ringRef (slabSet s.entries idx (.res { r with referenced := false }))
            (rest ++ [idx]) < fuel
          have hrr : ringRef (slabSet s.entries idx (.res { r with referenced := false }))
              (rest ++ [idx]) + 1 = ringRef s.entries (idx :: rest) := by
            rw [ringRef_append, ringRef_cons, ringRef_nil]
            have h2 : ringRef (slabSet s.entries idx (.res { r with referenced := false })) rest
                = ringRef s.entries rest :=
              ringRef_congr (fun t ht => slabGet_slabSet_ne _ (fun he => hidxNotRest (he ▸ ht)))
            have h3 : refTok (slabSet s.entries idx (.res { r with referenced := false })) idx = 0 := by
              simp [refTok, slabGet_slabSet_self hget, refVal]
            have h4 : refTok s.entries idx = 1 := by
              simp [refTok, hget, refVal, href]
            rw [h2, h3, ringRef_cons, h4]
            omega
          rw [hhot] at hm
          omega
      · rw [if_neg href]
        simp

theorem slabRemove_slabSet (l : List (Nat × Entry)) (t : Nat) (e : Entry) :
    slabRemove (slabSet l t e) t = slabRemove l t := by
  induction l with
  | nil => rfl
  | cons p rest ih =>
    by_cases hp : p.1 = t
    · simp [slabSet, slabRemove, hp]
    · simp [slabSet, slabRemove, hp, ih]

theorem advance_ghost_spec {s : Shard} (hs : WF s) (hne : s.ghostRing ≠ []) :
    ∃ s1, advance_ghost s = some s1 ∧ WF s1
      ∧ s1.entries = s.entries
      ∧ s1.hotRing = s.hotRing ∧ s1.coldRing = s.coldRing
      ∧ s1.num_non_resident + 1 = s.num_non_resident
      ∧ s1.weight_hot = s.weight_hot ∧ s1.weight_cold = s.weight_cold
      ∧ s1.num_hot = s.num_hot ∧ s1.num_cold = s.num_cold
      ∧ s1.hashB = s.hashB ∧ s1.weighter = s.weighter
      ∧ s1.weight_target_hot = s.weight_target_hot
      ∧ s1.weight_capacity = s.weight_capacity
      ∧ s1.capacity_non_resident = s.capacity_non_resident
      ∧ s1.hits = s.hits ∧ s1.misses = s.misses ∧ s1.nextTok = s.nextTok := by
  cases hg : s.ghostRing with
  | nil => exact absurd hg hne
  | cons idx rest =>
    obtain ⟨g, hget⟩ := hs.ghostOK idx (by rw [hg]; exact List.mem_cons_self _ _)
    have hstep : advance_ghost s = some { s with num_non_resident := s.num_non_resident - 1, mapIdx := mapErase s.mapIdx g idx, ghostRing := rest } := by
      simp only [advance_ghost, hg, hget]
    refine ⟨_, hstep, ?_, rfl, rfl, rfl, ?_, rfl, rfl,
      rfl, rfl, rfl, rfl, rfl, rfl, rfl, rfl, rfl, rfl⟩
    · have hidxNotRest : idx ∉ rest := by
        have := hs.ghostNd
        rw [hg] at this
        exact (List.nodup_cons.mp this).1
      have hclear : ∀ q ∈ mapErase s.mapIdx g idx, q.2 ≠ idx := by
        apply mapErase_clears_tok hs.mapNd
        intro q hq hq2
        have := hs.mapHash q hq
        rw [hq2] at this
        simp only [hashOfTok, hget] at this
        cases this
        rfl
      constructor
      case entNd => exact hs.entNd
      case entFresh => exact hs.entFresh
      case hotOK => exact hs.hotOK
      case coldOK => exact hs.coldOK
      case ghostOK =>
        intro t ht
        exact hs.ghostOK t (by rw [hg]; exact List.mem_cons_of_mem _ ht)
      case hotNd => exact hs.hotNd
      case coldNd => exact hs.coldNd
      case ghostNd =>
        have := hs.ghostNd
        rw [hg] at this
        exact (List.nodup_cons.mp this).2
      case numHot => exact hs.numHot
      case numCold => exact hs.numCold
      case numGhost =>
        have := hs.numGhost
        rw [hg] at this
        simp only [List.length_cons] at this
        show s.num_non_resident - 1 = rest.length
        omega
      case wHot => exact hs.wHot
      case wCold => exact hs.wCold
      case mapRing =>
        intro q hq e hgetq
        have hqm : q ∈ s.mapIdx := (mapErase_sublist _ _ _).mem hq
        have hold := hs.mapRing q hqm e hgetq
        cases e with
        | res rt => exact hold
        | ghost g2 =>
          simp only [tokInRing] at hold ⊢
          rw [hg] at hold
          rcases List.mem_cons.mp hold with h1 | h1
          · exact absurd h1 (hclear q hq)
          · exact h1
      case mapHash =>
        intro q hq
        exact hs.mapHash q ((mapErase_sublist _ _ _).mem hq)
      case mapNd => exact hs.mapNd.sublist ((mapErase_sublist _ _ _).map Prod.snd)
      case statBudget => exact hs.statBudget
      case statTargetPos => exact hs.statTargetPos
      case statTargetLe => exact hs.statTargetLe
    · have := hs.numGhost
      rw [hg] at this
      simp only [List.length_cons] at this
      show s.num_non_resident - 1 + 1 = s.num_non_resident
      omega

theorem WF_coldRetest {s : Shard} {idx : Nat} {rest : List Nat} {r : Resident}
    (hs : WF s) (hcold : s.coldRing = idx :: rest)
    (hget : slabGet s.entries idx = some (.res r)) :
    WF { s with
      entries := slabSet s.entries idx (.res { r with referenced := false, state := .ColdInTest })
      coldRing := rest ++ [idx] } := by
  have hkeys := slabSet_keys s.entries idx
    (.res { r with referenced := false, state := ResidentState.ColdInTest })
  have hgetSelf : slabGet (slabSet s.entries idx
        (.res { r with referenced := false, state := .ColdInTest })) idx
      = some (.res { r with referenced := false, state := .ColdInTest }) :=
    slabGet_slabSet_self hget
  have hgetNe : ∀ u, u ≠ idx →
      slabGet (slabSet s.entries idx
        (.res { r with referenced := false, state := .ColdInTest })) u
      = slabGet s.entries u := fun u hu => slabGet_slabSet_ne _ hu
  have hidxCold : idx ∈ s.coldRing := by rw [hcold]; exact List.mem_cons_self _ _
  have hidxNotRest : idx ∉ rest := by
    have := hs.coldNd
    rw [hcold] at this
    exact (List.nodup_cons.mp this).1
  have hidxNotHot : idx ∉ s.hotRing := fun hh => hs.hot_not_cold hh hidxCold
  have hidxNotGhost : idx ∉ s.ghostRing := hs.cold_not_ghost hidxCold
  constructor
  case entNd => rw [hkeys]; exact hs.entNd
  case entFresh => rw [hkeys]; exact hs.entFresh
  case hotOK =>
    intro t ht
    have hne : t ≠ idx := fun he => hidxNotHot (he ▸ ht)
    obtain ⟨rt, hrt, hst⟩ := hs.hotOK t ht
    exact ⟨rt, by rw [hgetNe t hne]; exact hrt, hst⟩
  case coldOK =>
    intro t ht
    rcases List.mem_append.mp ht with ht1 | ht1
    · have hne : t ≠ idx := fun he => hidxNotRest (he ▸ ht1)
      obtain ⟨rt, hrt, hst⟩ := hs.coldOK t (by rw [hcold]; exact List.mem_cons_of_mem _ ht1)
      exact ⟨rt, by rw [hgetNe t hne]; exact hrt, hst⟩
    · have : t = idx := by simpa using ht1
      subst this
      exact ⟨{ r with referenced := false, state := .ColdInTest }, hgetSelf, by simp⟩
  case ghostOK =>
    intro t ht
    have hne : t ≠ idx := fun he => hidxNotGhost (he ▸ ht)
    obtain ⟨g, hg⟩ := hs.ghostOK t ht
    exact ⟨g, by rw [hgetNe t hne]; exact hg⟩
  case hotNd => exact hs.hotNd
  case coldNd =>
    exact (List.perm_append_singleton idx rest).nodup_iff.mpr (hcold ▸ hs.coldNd)
  case ghostNd => exact hs.ghostNd
  case numHot => exact hs.numHot
  case numCold =>
    have := hs.numCold
    rw [hcold] at this
    simpa using this
  case numGhost => exact hs.numGhost
  case wHot =>
    have h2 : ringW s.weighter (slabSet s.entries idx
          (.res { r with referenced := false, state := .ColdInTest })) s.hotRing
        = ringW s.weighter s.entries s.hotRing :=
      ringW_congr (fun t ht => hgetNe t (fun he => hidxNotHot (he ▸ ht)))
    rw [h2]
    exact hs.wHot
  case wCold =>
    have h1 : ringW s.weighter (slabSet s.entries idx
          (.res { r with referenced := false, state := .ColdInTest })) (rest ++ [idx])
        = ringW s.weighter s.entries rest + tokW s.weighter s.entries idx := by
      rw [ringW_append]
      have h2 : ringW s.weighter (slabSet s.entries idx
            (.res { r with referenced := false, state := .ColdInTest })) rest
          = ringW s.weighter s.entries rest :=
        ringW_congr (fun t ht => hgetNe t (fun he => hidxNotRest (he ▸ ht)))
      have h3 : tokW s.weighter (slabSet s.entries idx
            (.res { r with referenced := false, state := .ColdInTest })) idx
          = tokW s.weighter s.entries idx := by
        simp [tokW, hgetSelf, hget]
      rw [h2, ringW_cons, ringW_nil, h3]
      omega
    have h0 := hs.wCold
    rw [hcold, ringW_cons] at h0
    show s.weight_cold
      = ringW s.weighter (slabSet s.entries idx
          (.res { r with referenced := false, state := .ColdInTest })) (rest ++ [idx])
    rw [h1]
    omega
  case mapRing =>
    intro q hq e hgetq
    by_cases hqi : q.2 = idx
    · rw [hqi, hgetSelf] at hgetq
      cases hgetq
      simp only [tokInRing]
      rw [if_neg (by simp)]
      rw [hqi]
      exact List.mem_append.mpr (Or.inr (by simp))
    · rw [hgetNe q.2 hqi] at hgetq
      have hold := hs.mapRing q hq e hgetq
      cases e with
      | res rt =>
        simp only [tokInRing] at hold ⊢
        by_cases hst2 : rt.state = ResidentState.Hot
        · rw [if_pos hst2] at hold ⊢
          exact hold
        · rw [if_neg hst2] at hold ⊢
          rw [hcold] at hold
          rcases List.mem_cons.mp hold with h1 | h1
          · exact absurd h1 hqi
          · exact List.mem_append.mpr (Or.inl h1)
      | ghost g => simpa [tokInRing] using hold
  case mapHash =>
    intro q hq
    have hold := hs.mapHash q hq
    by_cases hqi : q.2 = idx
    · rw [hqi] at hold ⊢
      simp only [hashOfTok, hget] at hold
      simp only [hashOfTok, hgetSelf]
      exact hold
    · simp only [hashOfTok, hgetNe q.2 hqi]
      exact hold
  case mapNd => exact hs.mapNd
  case statBudget => exact hs.statBudget
  case statTargetPos => exact hs.statTargetPos
  case statTargetLe => exact hs.statTargetLe

theorem WF_coldPromote {s : Shard} {idx : Nat} {rest : List Nat} {r : Resident}
    (hs : WF s) (hcold : s.coldRing = idx :: rest)
    (hget : slabGet s.entries idx = some (.res r)) :
    WF { s with
      entries := slabSet s.entries idx (.res { r with referenced := false, state := .Hot })
      num_hot := s.num_hot + 1
      num_cold := s.num_cold - 1
      weight_hot := s.weight_hot + weightOfR s r
      weight_cold := s.weight_cold - weightOfR s r
      coldRing := rest
      hotRing := s.hotRing ++ [idx] } := by
  have hkeys := slabSet_keys s.entries idx
    (.res { r with referenced := false, state := ResidentState.Hot })
  have hgetSelf : slabGet (slabSet s.entries idx
        (.res { r with referenced := false, state := .Hot })) idx
      = some (.res { r with referenced := false, state := .Hot }) :=
    slabGet_slabSet_self hget
  have hgetNe : ∀ u, u ≠ idx →
      slabGet (slabSet s.entries idx
        (.res { r with referenced := false, state := .Hot })) u
      = slabGet s.entries u := fun u hu => slabGet_slabSet_ne _ hu
  have hidxCold : idx ∈ s.coldRing := by rw [hcold]; exact List.mem_cons_self _ _
  have hidxNotRest : idx ∉ rest := by
    have := hs.coldNd
    rw [hcold] at this
    exact (List.nodup_cons.mp this).1
  have hidxNotHot : idx ∉ s.hotRing := fun hh => hs.hot_not_cold hh hidxCold
  have hidxNotGhost : idx ∉ s.ghostRing := hs.cold_not_ghost hidxCold
  have htokW : tokW s.weighter (slabSet s.entries idx
        (.res { r with referenced := false, state := .Hot })) idx
      = weightOfR s r := by
    simp [tokW, hgetSelf, weightOfR]
  have htokWold : tokW s.weighter s.entries idx = weightOfR s r := by
    simp [tokW, hget, weightOfR]
  constructor
  case entNd => rw [hkeys]; exact hs.entNd
  case entFresh => rw [hkeys]; exact hs.entFresh
  case hotOK =>
    intro t ht
    rcases List.mem_append.mp ht with ht1 | ht1
    · have hne : t ≠ idx := fun he => hidxNotHot (he ▸ ht1)
      obtain ⟨rt, hrt, hst⟩ := hs.hotOK t ht1
      exact ⟨rt, by rw [hgetNe t hne]; exact hrt, hst⟩
    · have : t = idx := by simpa using ht1
      subst this
      exact ⟨{ r with referenced := false, state := .Hot }, hgetSelf, rfl⟩
  case coldOK =>
    intro t ht
    have hne : t ≠ idx := fun he => hidxNotRest (he ▸ ht)
    obtain ⟨rt, hrt, hst⟩ := hs.coldOK t (by rw [hcold]; exact List.mem_cons_of_mem _ ht)
    exact ⟨rt, by rw [hgetNe t hne]; exact hrt, hst⟩
  case ghostOK =>
    intro t ht
    have hne : t ≠ idx := fun he => hidxNotGhost (he ▸ ht)
    obtain ⟨g, hg⟩ := hs.ghostOK t ht
    exact ⟨g, by rw [hgetNe t hne]; exact hg⟩
  case hotNd =>
    simp [List.nodup_append, hs.hotNd, hidxNotHot]
  case coldNd =>
    have := hs.coldNd
    rw [hcold] at this
    exact (List.nodup_cons.mp this).2
  case ghostNd => exact hs.ghostNd
  case numHot =>
    have := hs.numHot
    show s.num_hot + 1 = (s.hotRing ++ [idx]).length
    simp [this]
  case numCold =>
    have := hs.numCold
    rw [hcold] at this
    simp only [List.length_cons] at this
    show s.num_cold - 1 = rest.length
    omega
  case numGhost => exact hs.numGhost
  case wHot =>
    have h2 : ringW s.weighter (slabSet s.entries idx
          (.res { r with referenced := false, state := .Hot })) s.hotRing
        = ringW s.weighter s.entries s.hotRing :=
      ringW_congr (fun t ht => hgetNe t (fun he => hidxNotHot (he ▸ ht)))
    have h0 := hs.wHot
    show s.weight_hot + weightOfR s r
      = ringW s.weighter (slabSet s.entries idx
          (.res { r with referenced := false, state := .Hot })) (s.hotRing ++ [idx])
    rw [ringW_append, h2, ringW_cons, ringW_nil, htokW]
    omega
  case wCold =>
    have h2 : ringW s.weighter (slabSet s.entries idx
          (.res { r with referenced := false, state := .Hot })) rest
        = ringW s.weighter s.entries rest :=
      ringW_congr (fun t ht => hgetNe t (fun he => hidxNotRest (he ▸ ht)))
    have h0 := hs.wCold
    rw [hcold, ringW_cons, htokWold] at h0
    show s.weight_cold - weightOfR s r
      = ringW s.weighter (slabSet s.entries idx
          (.res { r with referenced := false, state := .Hot })) rest
    rw [h2]
    omega
  case mapRing =>
    intro q hq e hgetq
    by_cases hqi : q.2 = idx
    · rw [hqi, hgetSelf] at hgetq
      cases hgetq
      simp only [tokInRing, if_pos]
      rw [hqi]
      exact List.mem_append.mpr (Or.inr (by simp))
    · rw [hgetNe q.2 hqi] at hgetq
      have hold := hs.mapRing q hq e hgetq
      cases e with
      | res rt =>
        simp only [tokInRing] at hold ⊢
        by_cases hst2 : rt.state = ResidentState.Hot
        · rw [if_pos hst2] at hold ⊢
          exact List.mem_append.mpr (Or.inl hold)
        · rw [if_neg hst2] at hold ⊢
          rw [hcold] at hold
          rcases List.mem_cons.mp hold with h1 | h1
          · exact absurd h1 hqi
          · exact h1
      | ghost g => simpa [tokInRing] using hold
  case mapHash =>
    intro q hq
    have hold := hs.mapHash q hq
    by_cases hqi : q.2 = idx
    · rw [hqi] at hold ⊢
      simp only [hashOfTok, hget] at hold
      simp only [hashOfTok, hgetSelf]
      exact hold
    · simp only [hashOfTok, hgetNe q.2 hqi]
      exact hold
  case mapNd => exact hs.mapNd
  case statBudget => exact hs.statBudget
  case statTargetPos => exact hs.statTargetPos
  case statTargetLe => exact hs.statTargetLe

theorem weightOfR_congr {s1 s : Shard} (r : Resident) (h : s1.weighter = s.weighter) :
    weightOfR s1 r = weightOfR s r := by
  simp [weightOfR, h]

theorem WF_coldEvictGhost {s : Shard} {idx : Nat} {rest : List Nat} {r : Resident}
    (hs : WF s) (hcold : s.coldRing = idx :: rest)
    (hget : slabGet s.entries idx = some (.res r)) :
    WF { s with
      entries := slabSet s.entries idx (.ghost (s.hashB r.key r.version))
      num_cold := s.num_cold - 1
      weight_cold := s.weight_cold - weightOfR s r
      num_non_resident := s.num_non_resident + 1
      coldRing := rest
      ghostRing := s.ghostRing ++ [idx] } := by
  have hkeys := slabSet_keys s.entries idx (.ghost (s.hashB r.key r.version))
  have hgetSelf : slabGet (slabSet s.entries idx (.ghost (s.hashB r.key r.version))) idx
      = some (.ghost (s.hashB r.key r.version)) := slabGet_slabSet_self hget
  have hgetNe : ∀ u, u ≠ idx →
      slabGet (slabSet s.entries idx (.ghost (s.hashB r.key r.version))) u
      = slabGet s.entries u := fun u hu => slabGet_slabSet_ne _ hu
  have hidxCold : idx ∈ s.coldRing := by rw [hcold]; exact List.mem_cons_self _ _
  have hidxNotRest : idx ∉ rest := by
    have := hs.coldNd
    rw [hcold] at this
    exact (List.nodup_cons.mp this).1
  have hidxNotHot : idx ∉ s.hotRing := fun hh => hs.hot_not_cold hh hidxCold
  have hidxNotGhost : idx ∉ s.ghostRing := hs.cold_not_ghost hidxCold
  have htokWold : tokW s.weighter s.entries idx = weightOfR s r := by
    simp [tokW, hget, weightOfR]
  constructor
  case entNd => rw [hkeys]; exact hs.entNd
  case entFresh => rw [hkeys]; exact hs.entFresh
  case hotOK =>
    intro t ht
    have hne : t ≠ idx := fun he => hidxNotHot (he ▸ ht)
    obtain ⟨rt, hrt, hst⟩ := hs.hotOK t ht
    exact ⟨rt, by rw [hgetNe t hne]; exact hrt, hst⟩
  case coldOK =>
    intro t ht
    have hne : t ≠ idx := fun he => hidxNotRest (he ▸ ht)
    obtain ⟨rt, hrt, hst⟩ := hs.coldOK t (by rw [hcold]; exact List.mem_cons_of_mem _ ht)
    exact ⟨rt, by rw [hgetNe t hne]; exact hrt, hst⟩
  case ghostOK =>
    intro t ht
    rcases List.mem_append.mp ht with ht1 | ht1
    · have hne : t ≠ idx := fun he => hidxNotGhost (he ▸ ht1)
      obtain ⟨g, hg⟩ := hs.ghostOK t ht1
      exact ⟨g, by rw [hgetNe t hne]; exact hg⟩
    · have : t = idx := by simpa using ht1
      subst this
      exact ⟨s.hashB r.key r.version, hgetSelf⟩
  case hotNd => exact hs.hotNd
  case coldNd =>
    have := hs.coldNd
    rw [hcold] at this
    exact (List.nodup_cons.mp this).2
  case ghostNd =>
    simp [List.nodup_append, hs.ghostNd, hidxNotGhost]
  case numHot => exact hs.numHot
  case numCold =>
    have := hs.numCold
    rw [hcold] at this
    simp only [List.length_cons] at this
    show s.num_cold - 1 = rest.length
    omega
  case numGhost =>
    have := hs.numGhost
    show s.num_non_resident + 1 = (s.ghostRing ++ [idx]).length
    simp [this]
  case wHot =>
    have h2 : ringW s.weighter (slabSet s.entries idx (.ghost (s.hashB r.key r.version))) s.hotRing
        = ringW s.weighter s.entries s.hotRing :=
      ringW_congr (fun t ht => hgetNe t (fun he => hidxNotHot (he ▸ ht)))
    rw [h2]
    exact hs.wHot
  case wCold =>
    have h2 : ringW s.weighter (slabSet s.entries idx (.ghost (s.hashB r.key r.version))) rest
        = ringW s.weighter s.entries rest :=
      ringW_congr (fun t ht => hgetNe t (fun he => hidxNotRest (he ▸ ht)))
    have h0 := hs.wCold
    rw [hcold, ringW_cons, htokWold] at h0
    show s.weight_cold - weightOfR s r
      = ringW s.weighter (slabSet s.entries idx (.ghost (s.hashB r.key r.version))) rest
    rw [h2]
    omega
  case mapRing =>
    intro q hq e hgetq
    by_cases hqi : q.2 = idx
    · rw [hqi, hgetSelf] at hgetq
      cases hgetq
      simp only [tokInRing]
      rw [hqi]
      exact List.mem_append.mpr (Or.inr (by simp))
    · rw [hgetNe q.2 hqi] at hgetq
      have hold := hs.mapRing q hq e hgetq
      cases e with
      | res rt =>
        simp only [tokInRing] at hold ⊢
        by_cases hst2 : rt.state = ResidentState.Hot
        · rw [if_pos hst2] at hold ⊢
          exact hold
        · rw [if_neg hst2] at hold ⊢
          rw [hcold] at hold
          rcases List.mem_cons.mp hold with h1 | h1
          · exact absurd h1 hqi
          · exact h1
      | ghost g =>
        simp only [tokInRing] at hold ⊢
        exact List.mem_append.mpr (Or.inl hold)
  case mapHash =>
    intro q hq
    have hold := hs.mapHash q hq
    by_cases hqi : q.2 = idx
    · rw [hqi] at hold ⊢
      simp only [hashOfTok, hget] at hold
      simp only [hashOfTok, hgetSelf]
      exact hold
    · simp only [hashOfTok, hgetNe q.2 hqi]
      exact hold
  case mapNd => exact hs.mapNd
  case statBudget => exact hs.statBudget
  case statTargetPos => exact hs.statTargetPos
  case statTargetLe => exact hs.statTargetLe

theorem WF_coldEvictDrop {s : Shard} {idx : Nat} {rest : List Nat} {r : Resident}
    (hs : WF s) (hcold : s.coldRing = idx :: rest)
    (hget : slabGet s.entries idx = some (.res r)) :
    WF { s with
      entries := slabRemove (slabSet s.entries idx (.ghost (s.hashB r.key r.version))) idx
      num_cold := s.num_cold - 1
      weight_cold := s.weight_cold - weightOfR s r
      mapIdx := mapErase s.mapIdx (s.hashB r.key r.version) idx
      coldRing := rest } := by
  have hrem : slabRemove (slabSet s.entries idx (.ghost (s.hashB r.key r.version))) idx
      = slabRemove s.entries idx := slabRemove_slabSet _ _ _
  have hgetNe : ∀ u, u ≠ idx →
      slabGet (slabRemove s.entries idx) u = slabGet s.entries u :=
    fun u hu => slabGet_slabRemove_ne hu
  have hkeysSub : List.Sublist ((slabRemove s.entries idx).map Prod.fst)
      (s.entries.map Prod.fst) := (slabRemove_sublist _ _).map Prod.fst
  have hidxCold : idx ∈ s.coldRing := by rw [hcold]; exact List.mem_cons_self _ _
  have hidxNotRest : idx ∉ rest := by
    have := hs.coldNd
    rw [hcold] at this
    exact (List.nodup_cons.mp this).1
  have hidxNotHot : idx ∉ s.hotRing := fun hh => hs.hot_not_cold hh hidxCold
  have hidxNotGhost : idx ∉ s.ghostRing := hs.cold_not_ghost hidxCold
  have htokWold : tokW s.weighter s.entries idx = weightOfR s r := by
    simp [tokW, hget, weightOfR]
  have hclear : ∀ q ∈ mapErase s.mapIdx (s.hashB r.key r.version) idx, q.2 ≠ idx := by
    apply mapErase_clears_tok hs.mapNd
    intro q hq hq2
    have := hs.mapHash q hq
    rw [hq2] at this
    simp only [hashOfTok, hget] at this
    exact (Option.some.inj this).symm
  rw [hrem]
  constructor
  case entNd => exact hs.entNd.sublist hkeysSub
  case entFresh => exact fun t ht => hs.entFresh t (hkeysSub.mem ht)
  case hotOK =>
    intro t ht
    have hne : t ≠ idx := fun he => hidxNotHot (he ▸ ht)
    obtain ⟨rt, hrt, hst⟩ := hs.hotOK t ht
    exact ⟨rt, by rw [hgetNe t hne]; exact hrt, hst⟩
  case coldOK =>
    intro t ht
    have hne : t ≠ idx := fun he => hidxNotRest (he ▸ ht)
    obtain ⟨rt, hrt, hst⟩ := hs.coldOK t (by rw [hcold]; exact List.mem_cons_of_mem _ ht)
    exact ⟨rt, by rw [hgetNe t hne]; exact hrt, hst⟩
  case ghostOK =>
    intro t ht
    have hne : t ≠ idx := fun he => hidxNotGhost (he ▸ ht)
    obtain ⟨g, hg⟩ := hs.ghostOK t ht
    exact ⟨g, by rw [hgetNe t hne]; exact hg⟩
  case hotNd => exact hs.hotNd
  case coldNd =>
    have := hs.coldNd
    rw [hcold] at this
    exact (List.nodup_cons.mp this).2
  case ghostNd => exact hs.ghostNd
  case numHot => exact hs.numHot
  case numCold =>
    have := hs.numCold
    rw [hcold] at this
    simp only [List.length_cons] at this
    show s.num_cold - 1 = rest.length
    omega
  case numGhost => exact hs.numGhost
  case wHot =>
    have h2 : ringW s.weighter (slabRemove s.entries idx) s.hotRing
        = ringW s.weighter s.entries s.hotRing :=
      ringW_congr (fun t ht => hgetNe t (fun he => hidxNotHot (he ▸ ht)))
    rw [h2]
    exact hs.wHot
  case wCold =>
    have h2 : ringW s.weighter (slabRemove s.entries idx) rest
        = ringW s.weighter s.entries rest :=
      ringW_congr (fun t ht => hgetNe t (fun he => hidxNotRest (he ▸ ht)))
    have h0 := hs.wCold
    rw [hcold, ringW_cons, htokWold] at h0
    show s.weight_cold - weightOfR s r = ringW s.weighter (slabRemove s.entries idx) rest
    rw [h2]
    omega
  case mapRing =>
    intro q hq e hgetq
    have hqm : q ∈ s.mapIdx := (mapErase_sublist _ _ _).mem hq
    have hne : q.2 ≠ idx := hclear q hq
    rw [hgetNe q.2 hne] at hgetq
    have hold := hs.mapRing q hqm e hgetq
    cases e with
    | res rt =>
      simp only [tokInRing] at hold ⊢
      by_cases hst2 : rt.state = ResidentState.Hot
      · rw [if_pos hst2] at hold ⊢
        exact hold
      · rw [if_neg hst2] at hold ⊢
        rw [hcold] at hold
        rcases List.mem_cons.mp hold with h1 | h1
        · exact absurd h1 hne
        · exact h1
    | ghost g => simpa [tokInRing] using hold
  case mapHash =>
    intro q hq
    have hqm : q ∈ s.mapIdx := (mapErase_sublist _ _ _).mem hq
    have hne : q.2 ≠ idx := hclear q hq
    have hold := hs.mapHash q hqm
    simp only [hashOfTok, hgetNe q.2 hne]
    exact hold
  case mapNd => exact hs.mapNd.sublist ((mapErase_sublist _ _ _).map Prod.snd)
  case statBudget => exact hs.statBudget
  case statTargetPos => exact hs.statTargetPos
  case statTargetLe => exact hs.statTargetLe

/-- Facts provided by one successful `advance_cold` call. -/
structure ColdStep (s s1 : Shard) (r : Resident) : Prop where
  wf : WF s1
  count : s1.hotRing.length + s1.coldRing.length + 1 = s.hotRing.length + s.coldRing.length
  total : s1.weight_hot + s1.weight_cold + weightOfR s r = s.weight_hot + s.weight_cold
  hashBEq : s1.hashB = s.hashB
  wtrEq : s1.weighter = s.weighter
  targetEq : s1.weight_target_hot = s.weight_target_hot
  capEq : s1.weight_capacity = s.weight_capacity
  capNrEq : s1.capacity_non_resident = s.capacity_non_resident
  hitsEq : s1.hits = s.hits
  missesEq : s1.misses = s.misses
  tokEq : s1.nextTok = s.nextTok

theorem advance_cold_spec : ∀ (fuel : Nat) (s s1 : Shard) (r : Resident),
    advance_cold fuel s = some (s1, r) → WF s → ColdStep s s1 r := by
  intro fuel
  induction fuel with
  | zero => intro s s1 r h; simp [advance_cold] at h
  | succ fuel ih =>
    intro s s1 r h hs
    cases hcold : s.coldRing with
    | nil => simp [advance_cold, hcold] at h
    | cons idx rest =>
      simp only [advance_cold, hcold] at h
      cases hget : slabGet s.entries idx with
      | none => rw [hget] at h; simp at h
      | some e =>
        cases e with
        | ghost g => rw [hget] at h; simp at h
        | res r0 =>
          simp only [hget] at h
          have hcoldLen : s.coldRing.length = rest.length + 1 := by rw [hcold]; simp
          have hwcold : tokW s.weighter s.entries idx + ringW s.weighter s.entries rest
              = s.weight_cold := by
            have h0 := hs.wCold
            rw [hcold, ringW_cons] at h0
            omega
          have htokWold : tokW s.weighter s.entries idx = weightOfR s r0 := by
            simp [tokW, hget, weightOfR]
          by_cases href : r0.referenced = true
          · rw [if_pos href] at h
            by_cases hstc : r0.state = ResidentState.ColdInTest
            · rw [if_pos hstc] at h
              have hwf1 : WF { s with
                  entries := slabSet s.entries idx
                    (.res { r0 with referenced := false, state := .Hot })
                  num_hot := s.num_hot + 1
                  num_cold := s.num_cold - 1
                  weight_hot := s.weight_hot + weightOfR s r0
                  weight_cold := s.weight_cold - weightOfR s r0
                  coldRing := rest
                  hotRing := s.hotRing ++ [idx] } := WF_coldPromote hs hcold hget
              split at h
              · -- hot weight above target: advance one hot entry as well
                split at h
                case _ s2 hah =>
                  have hstep := advance_hot_spec _ _ _ hah hwf1
                  have hcs := ih _ _ _ h hstep.wf
                  have hw2 : weightOfR s2 r = weightOfR s r := by
                    apply weightOfR_congr
                    rw [hstep.wtrEq]
                  have hh1 := hstep.hotLen
                  have hh2 := hstep.coldLen
                  have hh3 := hstep.total
                  dsimp only at hh1 hh2 hh3
                  simp only [List.length_append, List.length_cons, List.length_nil] at hh1
                  have hwle : weightOfR s r0 ≤ s.weight_cold := by omega
                  refine ⟨hcs.wf, ?_, ?_, ?_, ?_, ?_, ?_, ?_, ?_, ?_, ?_⟩
                  · have := hcs.count
                    omega
                  · have := hcs.total
                    rw [hw2] at this
                    omega
                  · rw [hcs.hashBEq, hstep.hashBEq]
                  · rw [hcs.wtrEq, hstep.wtrEq]
                  · rw [hcs.targetEq, hstep.targetEq]
                  · rw [hcs.capEq, hstep.capEq]
                  · rw [hcs.capNrEq, hstep.capNrEq]
                  · rw [hcs.hitsEq, hstep.hitsEq]
                  · rw [hcs.missesEq, hstep.missesEq]
                  · rw [hcs.tokEq, hstep.tokEq]
                case _ hah => simp at h
              · -- hot weight within target
                have hcs := ih _ _ _ h hwf1
                have hw2 : weightOfR { s with
                    entries := slabSet s.entries idx
                      (.res { r0 with referenced := false, state := .Hot })
                    num_hot := s.num_hot + 1
                    num_cold := s.num_cold - 1
                    weight_hot := s.weight_hot + weightOfR s r0
                    weight_cold := s.weight_cold - weightOfR s r0
                    coldRing := rest
                    hotRing := s.hotRing ++ [idx] } r = weightOfR s r := rfl
                have hwle : weightOfR s r0 ≤ s.weight_cold := by omega
                refine ⟨hcs.wf, ?_, ?_, ?_, ?_, ?_, ?_, ?_, ?_, ?_, ?_⟩
                · have := hcs.count
                  dsimp only at this
                  simp only [List.length_append, List.length_cons, List.length_nil] at this
                  omega
                · have := hcs.total
                  rw [hw2] at this
                  dsimp only at this
                  omega
                · rw [hcs.hashBEq]
                · rw [hcs.wtrEq]
                · rw [hcs.targetEq]
                · rw [hcs.capEq]
                · rw [hcs.capNrEq]
                · rw [hcs.hitsEq]
                · rw [hcs.missesEq]
                · rw [hcs.tokEq]
            · rw [if_neg hstc] at h
              have hwf1 : WF { s with
                  entries := slabSet s.entries idx
                    (.res { r0 with referenced := false, state := .ColdInTest })
                  coldRing := rest ++ [idx] } := WF_coldRetest hs hcold hget
              have hcs := ih _ _ _ h hwf1
              refine ⟨hcs.wf, ?_, ?_, ?_, ?_, ?_, ?_, ?_, ?_, ?_, ?_⟩
              · have := hcs.count
                dsimp only at this
                simp only [List.length_append, List.length_cons, List.length_nil] at this
                omega
              · have := hcs.total
                dsimp only [weightOfR] at this ⊢
                omega
              · rw [hcs.hashBEq]
              · rw [hcs.wtrEq]
              · rw [hcs.targetEq]
              · rw [hcs.capEq]
              · rw [hcs.capNrEq]
              · rw [hcs.hitsEq]
              · rw [hcs.missesEq]
              · rw [hcs.tokEq]
          · rw [if_neg href] at h
            have hwle : weightOfR s r0 ≤ s.weight_cold := by omega
            split at h
            · rename_i hcc
              split at h
              · rename_i htrim
                have hwfg := WF_coldEvictGhost hs hcold hget
                have hgne : ({ s with
                    entries := slabSet s.entries idx (.ghost (s.hashB r0.key r0.version))
                    num_cold := s.num_cold - 1
                    weight_cold := s.weight_cold - weightOfR s r0
                    num_non_resident := s.num_non_resident + 1
                    coldRing := rest
                    ghostRing := s.ghostRing ++ [idx] } : Shard).ghostRing ≠ [] := by
                  simp
                obtain ⟨s3w, hag2, hwf3, hent, hhot, hcold2, hng, hwh, hwc, hnh, hnc,
                  hhb, hwt, htg, hcp, hcn, hht, hms, htk⟩ := advance_ghost_spec hwfg hgne
                rw [hag2] at h
                dsimp only at h
                injection h with hpair
                injection hpair with hA hB
                subst hA
                subst hB
                refine ⟨hwf3, ?_, ?_, ?_, ?_, ?_, ?_, ?_, ?_, ?_, ?_⟩
                · rw [hhot, hcold2]
                  try dsimp only
                  omega
                · rw [hwh, hwc]
                  try dsimp only
                  omega
                · rw [hhb]
                · rw [hwt]
                · rw [htg]
                · rw [hcp]
                · rw [hcn]
                · rw [hht]
                · rw [hms]
                · rw [htk]
              · rename_i htrim
                injection h with hpair
                injection hpair with hA hB
                subst hA
                subst hB
                have hwfg := WF_coldEvictGhost hs hcold hget
                refine ⟨hwfg, ?_, ?_, rfl, rfl, rfl, rfl, rfl, rfl, rfl, rfl⟩
                · try dsimp only
                  omega
                · try dsimp only
                  omega
            · rename_i hcc
              injection h with hpair
              injection hpair with hA hB
              subst hA
              subst hB
              have hwfd := WF_coldEvictDrop hs hcold hget
              refine ⟨hwfd, ?_, ?_, rfl, rfl, rfl, rfl, rfl, rfl, rfl, rfl⟩
              · try dsimp only
                omega
              · try dsimp only
                omega

theorem advance_cold_isSome : ∀ (fuel : Nat) (s : Shard), WF s → s.coldRing ≠ [] →
    s.weight_target_hot < s.weight_hot + s.weight_cold →
    refC s.entries < fuel → (advance_cold fuel s).isSome := by
  intro fuel
  induction fuel with
  | zero => intro s _ _ _ hm; omega
  | succ fuel ih =>
    intro s hs hcne ht hm
    cases hcold : s.coldRing with
    | nil => exact absurd hcold hcne
    | cons idx rest =>
      obtain ⟨r0, hget, hstne⟩ := hs.coldOK idx (by rw [hcold]; exact List.mem_cons_self _ _)
      simp only [advance_cold, hcold, hget]
      have hwcold : tokW s.weighter s.entries idx + ringW s.weighter s.entries rest
          = s.weight_cold := by
        have h0 := hs.wCold
        rw [hcold, ringW_cons] at h0
        omega
      have htokWold : tokW s.weighter s.entries idx = weightOfR s r0 := by
        simp [tokW, hget, weightOfR]
      have hwle : weightOfR s r0 ≤ s.weight_cold := by omega
      by_cases href : r0.referenced = true
      · rw [if_pos href]
        have hrefCpos : 1 ≤ refC s.entries := by
          have := refVal_le_refC hget
          simp [refVal, href] at this
          omega
        by_cases hstc : r0.state = ResidentState.ColdInTest
        · rw [if_pos hstc]
          have hwf1 := WF_coldPromote hs hcold hget
          have hrefC1 : refC (slabSet s.entries idx
                (.res { r0 with referenced := false, state := .Hot })) + 1
              = refC s.entries := by
            have := refC_slabSet (l := s.entries) (t := idx)
              (.res { r0 with referenced := false, state := .Hot }) hget
            simp [refVal, href] at this
            omega
          split
          · -- the promotion pushed the hot weight above the target
            split
            · rename_i s2 hah
              have hstep := advance_hot_spec _ _ _ hah hwf1
              apply ih s2 hstep.wf hstep.coldNe
              · have ht2 := hstep.targetEq
                have ht3 := hstep.total
                dsimp only at ht2 ht3
                rw [ht2]
                omega
              · have hr2 := hstep.ref
                dsimp only at hr2
                omega
            · rename_i hah
              exfalso
              have hAH := advance_hot_isSome _ _ hwf1
                (by simp)
                (Nat.lt_succ_of_le (ringRef_le_length _ _))
              exact (Option.isSome_iff_ne_none.mp hAH) hah
          · rename_i hcnd
            apply ih _ hwf1
            · -- the remaining cold ring cannot be empty below the target
              have hwc1 : 1 ≤ s.weight_cold - weightOfR s r0 := by
                try dsimp only at hcnd
                omega
              have := hwf1.cold_nonempty_of_weight (by exact hwc1)
              exact this
            · try dsimp only
              omega
            · try dsimp only
              omega
        · rw [if_neg hstc]
          have hwf1 := WF_coldRetest hs hcold hget
          have hrefC1 : refC (slabSet s.entries idx
                (.res { r0 with referenced := false, state := .ColdInTest })) + 1
              = refC s.entries := by
            have := refC_slabSet (l := s.entries) (t := idx)
              (.res { r0 with referenced := false, state := .ColdInTest }) hget
            simp [refVal, href] at this
            omega
          apply ih _ hwf1
          · simp
          · try dsimp only
            omega
          · try dsimp only
            omega
      · rw [if_neg href]
        split
        · rename_i hcc
          split
          · rename_i htrim
            have hwfg := WF_coldEvictGhost hs hcold hget
            have hgne : ({ s with
                entries := slabSet s.entries idx (.ghost (s.hashB r0.key r0.version))
                num_cold := s.num_cold - 1
                weight_cold := s.weight_cold - weightOfR s r0
                num_non_resident := s.num_non_resident + 1
                coldRing := rest
                ghostRing := s.ghostRing ++ [idx] } : Shard).ghostRing ≠ [] := by
              simp
            obtain ⟨s3w, hag2, hrest⟩ := advance_ghost_spec hwfg hgne
            rw [hag2]
            simp
          · simp
        · simp

/-- Facts provided by a completed hot loop of `evict`. -/
structure HotLoopStep (s s1 : Shard) : Prop where
  wf : WF s1
  total : s1.weight_hot + s1.weight_cold = s.weight_hot + s.weight_cold
  count : s1.hotRing.length + s1.coldRing.length = s.hotRing.length + s.coldRing.length
  ref : refC s1.entries ≤ refC s.entries
  hashBEq : s1.hashB = s.hashB
  wtrEq : s1.weighter = s.weighter
  targetEq : s1.weight_target_hot = s.weight_target_hot
  capEq : s1.weight_capacity = s.weight_capacity
  capNrEq : s1.capacity_non_resident = s.capacity_non_resident
  hitsEq : s1.hits = s.hits
  missesEq : s1.misses = s.misses
  tokEq : s1.nextTok = s.nextTok
  exitWh : s1.weight_hot ≤ s1.weight_target_hot
  exitCold : s1.coldRing ≠ []

theorem evictHotLoop_spec : ∀ (fuel : Nat) (s s1 : Shard),
    evictHotLoop fuel s = some s1 → WF s → HotLoopStep s s1 := by
  intro fuel
  induction fuel with
  | zero => intro s s1 h; simp [evictHotLoop] at h
  | succ fuel ih =>
    intro s s1 h hs
    rw [evictHotLoop] at h
    split at h
    · rename_i hcnd
      split at h
      · rename_i sm hah
        have hstep := advance_hot_spec _ _ _ hah hs
        have hrec := ih _ _ h hstep.wf
        exact ⟨hrec.wf,
          by rw [hrec.total, hstep.total],
          by have h1 := hrec.count
             have h2 := hstep.hotLen
             have h3 := hstep.coldLen
             omega,
          le_trans hrec.ref hstep.ref,
          by rw [hrec.hashBEq, hstep.hashBEq],
          by rw [hrec.wtrEq, hstep.wtrEq],
          by rw [hrec.targetEq, hstep.targetEq],
          by rw [hrec.capEq, hstep.capEq],
          by rw [hrec.capNrEq, hstep.capNrEq],
          by rw [hrec.hitsEq, hstep.hitsEq],
          by rw [hrec.missesEq, hstep.missesEq],
          by rw [hrec.tokEq, hstep.tokEq],
          hrec.exitWh, hrec.exitCold⟩
      · rename_i hah
        simp at h
    · rename_i hcnd
      cases h
      push_neg at hcnd
      exact ⟨hs, rfl, rfl, le_refl _, rfl, rfl, rfl, rfl, rfl, rfl, rfl, rfl,
        hcnd.1, hcnd.2⟩

theorem evictHotLoop_isSome : ∀ (fuel : Nat) (s : Shard), WF s →
    s.weight_target_hot < s.weight_hot + s.weight_cold →
    s.hotRing.length < fuel → (evictHotLoop fuel s).isSome := by
  intro fuel
  induction fuel with
  | zero => intro s _ _ hm; omega
  | succ fuel ih =>
    intro s hs ht hm
    rw [evictHotLoop]
    split
    · rename_i hcnd
      have hhotne : s.hotRing ≠ [] := by
        rcases hcnd with h1 | h1
        · exact hs.hot_nonempty_of_weight (by omega)
        · have hwc0 : s.weight_cold = 0 := by
            rw [hs.wCold, h1, ringW_nil]
          exact hs.hot_nonempty_of_weight (by omega)
      have hAH := advance_hot_isSome (s.hotRing.length + 1) s hs hhotne
        (Nat.lt_succ_of_le (ringRef_le_length _ _))
      split
      · rename_i sm hah
        have hstep := advance_hot_spec _ _ _ hah hs
        apply ih sm hstep.wf
        · rw [hstep.targetEq, hstep.total]
          exact ht
        · have := hstep.hotLen
          omega
      · rename_i hah
        exact absurd hah (Option.isSome_iff_ne_none.mp hAH)
    · simp

/-- Facts provided by one successful `evict` call. -/
structure EvictStep (s s1 : Shard) (r : Resident) : Prop where
  wf : WF s1
  count : s1.hotRing.length + s1.coldRing.length + 1 = s.hotRing.length + s.coldRing.length
  numCount : s1.num_hot + s1.num_cold + 1 = s.num_hot + s.num_cold
  total : s1.weight_hot + s1.weight_cold + weightOfR s r = s.weight_hot + s.weight_cold
  hashBEq : s1.hashB = s.hashB
  wtrEq : s1.weighter = s.weighter
  targetEq : s1.weight_target_hot = s.weight_target_hot
  capEq : s1.weight_capacity = s.weight_capacity
  capNrEq : s1.capacity_non_resident = s.capacity_non_resident
  hitsEq : s1.hits = s.hits
  missesEq : s1.misses = s.misses
  tokEq : s1.nextTok = s.nextTok

theorem evict_spec {s s1 : Shard} {r : Resident} (h : evict s = some (s1, r))
    (hs : WF s) : EvictStep s s1 r := by
  rw [evict] at h
  split at h
  · rename_i sm hloop
    have hl := evictHotLoop_spec _ _ _ hloop hs
    have hc := advance_cold_spec _ _ _ _ h hl.wf
    have hw : weightOfR sm r = weightOfR s r := weightOfR_congr r hl.wtrEq
    refine ⟨hc.wf, ?_, ?_, ?_, ?_, ?_, ?_, ?_, ?_, ?_, ?_, ?_⟩
    · have h1 := hc.count
      have h2 := hl.count
      omega
    · have h1 := hc.wf.numHot
      have h2 := hc.wf.numCold
      have h3 := hs.numHot
      have h4 := hs.numCold
      have h5 := hc.count
      have h6 := hl.count
      omega
    · have h1 := hc.total
      rw [hw] at h1
      have h2 := hl.total
      omega
    · rw [hc.hashBEq, hl.hashBEq]
    · rw [hc.wtrEq, hl.wtrEq]
    · rw [hc.targetEq, hl.targetEq]
    · rw [hc.capEq, hl.capEq]
    · rw [hc.capNrEq, hl.capNrEq]
    · rw [hc.hitsEq, hl.hitsEq]
    · rw [hc.missesEq, hl.missesEq]
    · rw [hc.tokEq, hl.tokEq]
  · rename_i hloop
    simp at h

theorem evict_isSome {s : Shard} (hs : WF s)
    (ht : s.weight_target_hot < s.weight_hot + s.weight_cold) :
    (evict s).isSome := by
  rw [evict]
  have hHL := evictHotLoop_isSome (s.hotRing.length + 1) s hs ht (Nat.lt_succ_self _)
  split
  · rename_i sm hloop
    have hl := evictHotLoop_spec _ _ _ hloop hs
    apply advance_cold_isSome
    · exact hl.wf
    · exact hl.exitCold
    · rw [hl.targetEq, hl.total]
      exact ht
    · exact Nat.lt_succ_of_le (refC_le_length _)
  · rename_i hloop
    exact absurd hloop (Option.isSome_iff_ne_none.mp hHL)

/-- Facts provided by a completed eviction loop of `insert_existing` or
`insert`. -/
structure DrainStep (s s1 : Shard) : Prop where
  wf : WF s1
  hashBEq : s1.hashB = s.hashB
  wtrEq : s1.weighter = s.weighter
  targetEq : s1.weight_target_hot = s.weight_target_hot
  capEq : s1.weight_capacity = s.weight_capacity
  capNrEq : s1.capacity_non_resident = s.capacity_non_resident
  hitsEq : s1.hits = s.hits
  missesEq : s1.misses = s.misses
  tokEq : s1.nextTok = s.nextTok

theorem insertExistingLoop_spec : ∀ (fuel : Nat) (ev : Option Resident) (s : Shard)
    (out : Option Resident × Shard), insertExistingLoop fuel ev s = some out → WF s →
    DrainStep s out.2 ∧ out.2.weight_hot + out.2.weight_cold ≤ out.2.weight_capacity := by
  intro fuel
  induction fuel with
  | zero => intro ev s out h; simp [insertExistingLoop] at h
  | succ fuel ih =>
    intro ev s out h hs
    rw [insertExistingLoop] at h
    split at h
    · rename_i hcnd
      split at h
      · rename_i s1 r hev
        have hstep := evict_spec hev hs
        obtain ⟨hd, hcap⟩ := ih _ _ _ h hstep.wf
        refine ⟨⟨hd.wf,
          by rw [hd.hashBEq, hstep.hashBEq],
          by rw [hd.wtrEq, hstep.wtrEq],
          by rw [hd.targetEq, hstep.targetEq],
          by rw [hd.capEq, hstep.capEq],
          by rw [hd.capNrEq, hstep.capNrEq],
          by rw [hd.hitsEq, hstep.hitsEq],
          by rw [hd.missesEq, hstep.missesEq],
          by rw [hd.tokEq, hstep.tokEq]⟩, hcap⟩
      · rename_i hev
        simp at h
    · rename_i hcnd
      cases h
      refine ⟨⟨hs, rfl, rfl, rfl, rfl, rfl, rfl, rfl, rfl⟩, ?_⟩
      show s.weight_hot + s.weight_cold ≤ s.weight_capacity
      omega

theorem insertExistingLoop_isSome : ∀ (fuel : Nat) (ev : Option Resident) (s : Shard),
    WF s → s.num_hot + s.num_cold < fuel → (insertExistingLoop fuel ev s).isSome := by
  intro fuel
  induction fuel with
  | zero => intro ev s _ hm; omega
  | succ fuel ih =>
    intro ev s hs hm
    rw [insertExistingLoop]
    split
    · rename_i hcnd
      have hEV := evict_isSome hs (lt_of_le_of_lt hs.statTargetLe hcnd)
      split
      · rename_i s1 r hev
        have hstep := evict_spec hev hs
        apply ih
        · exact hstep.wf
        · have := hstep.numCount
          omega
      · rename_i hev
        exact absurd hev (Option.isSome_iff_ne_none.mp hEV)
    · simp

theorem insertEvictLoop_spec : ∀ (fuel w : Nat) (s : Shard) (out : Resident × Shard),
    insertEvictLoop fuel w s = some out → WF s →
    DrainStep s out.2 ∧ out.2.weight_hot + out.2.weight_cold + w ≤ out.2.weight_capacity := by
  intro fuel
  induction fuel with
  | zero => intro w s out h; simp [insertEvictLoop] at h
  | succ fuel ih =>
    intro w s out h
    intro hs
    rw [insertEvictLoop] at h
    split at h
    · rename_i s1 r hev
      have hstep := evict_spec hev hs
      split at h
      · rename_i hfits
        cases h
        exact ⟨⟨hstep.wf, hstep.hashBEq, hstep.wtrEq, hstep.targetEq, hstep.capEq,
          hstep.capNrEq, hstep.hitsEq, hstep.missesEq, hstep.tokEq⟩, hfits⟩
      · obtain ⟨hd, hcap⟩ := ih _ _ _ h hstep.wf
        refine ⟨⟨hd.wf,
          by rw [hd.hashBEq, hstep.hashBEq],
          by rw [hd.wtrEq, hstep.wtrEq],
          by rw [hd.targetEq, hstep.targetEq],
          by rw [hd.capEq, hstep.capEq],
          by rw [hd.capNrEq, hstep.capNrEq],
          by rw [hd.hitsEq, hstep.hitsEq],
          by rw [hd.missesEq, hstep.missesEq],
          by rw [hd.tokEq, hstep.tokEq]⟩, hcap⟩
    · rename_i hev
      simp at h

theorem insertEvictLoop_isSome : ∀ (fuel w : Nat) (s : Shard), WF s →
    w + s.weight_target_hot ≤ s.weight_capacity →
    s.weight_capacity < s.weight_hot + s.weight_cold + w →
    s.num_hot + s.num_cold < fuel → (insertEvictLoop fuel w s).isSome := by
  intro fuel
  induction fuel with
  | zero => intro w s _ _ _ hm; omega
  | succ fuel ih =>
    intro w s hs hlight hover hm
    rw [insertEvictLoop]
    have hEV := evict_isSome hs (by omega)
    split
    · rename_i s1 r hev
      have hstep := evict_spec hev hs
      split
      · simp
      · rename_i hfits
        apply ih
        · exact hstep.wf
        · rw [hstep.targetEq, hstep.capEq]
          exact hlight
        · omega
        · have := hstep.numCount
          omega
    · rename_i hev
      exact absurd hev (Option.isSome_iff_ne_none.mp hEV)

theorem search_some {s : Shard} {hash key version idx : Nat}
    (h : search s hash key version = some idx) :
    (hash, idx) ∈ s.mapIdx ∧ searchEq s hash key version idx = true :=
  mapFind_some h

theorem searchEq_res {s : Shard} {hash key version idx : Nat} {r : Resident}
    (hg : slabGet s.entries idx = some (.res r))
    (h : searchEq s hash key version idx = true) :
    r.key = key ∧ r.version = version := by
  simp only [searchEq, hg] at h
  obtain ⟨h1, h2⟩ := Bool.and_eq_true_iff.mp h
  exact ⟨beq_iff_eq.mp h1, beq_iff_eq.mp h2⟩

theorem searchEq_ghost {s : Shard} {hash key version idx : Nat} {g : Nat}
    (hg : slabGet s.entries idx = some (.ghost g))
    (h : searchEq s hash key version idx = true) : g = hash := by
  simp only [searchEq, hg] at h
  exact beq_iff_eq.mp h

theorem WF_setCapNr {s : Shard} (hs : WF s) (x : Nat) :
    WF { s with capacity_non_resident := x } :=
  ⟨hs.entNd, hs.entFresh, hs.hotOK, hs.coldOK, hs.ghostOK, hs.hotNd, hs.coldNd,
   hs.ghostNd, hs.numHot, hs.numCold, hs.numGhost, hs.wHot, hs.wCold, hs.mapRing,
   hs.mapHash, hs.mapNd, hs.statBudget, hs.statTargetPos, hs.statTargetLe⟩

theorem WF_setMisses {s : Shard} (hs : WF s) (x : Nat) :
    WF { s with misses := x } :=
  ⟨hs.entNd, hs.entFresh, hs.hotOK, hs.coldOK, hs.ghostOK, hs.hotNd, hs.coldNd,
   hs.ghostNd, hs.numHot, hs.numCold, hs.numGhost, hs.wHot, hs.wCold, hs.mapRing,
   hs.mapHash, hs.mapNd, hs.statBudget, hs.statTargetPos, hs.statTargetLe⟩

/-- Setting the reference bit of a resident in place (as `get` does on a
hit) preserves well-formedness. -/
theorem WF_touchRes {s : Shard} {idx : Nat} {r : Resident} (hs : WF s)
    (hget : slabGet s.entries idx = some (.res r)) (x : Nat) :
    WF { s with
      entries := slabSet s.entries idx (.res { r with referenced := true })
      hits := x } := by
  have hkeys := slabSet_keys s.entries idx (.res { r with referenced := true })
  have hgetSelf : slabGet (slabSet s.entries idx (.res { r with referenced := true })) idx
      = some (.res { r with referenced := true }) := slabGet_slabSet_self hget
  have hgetNe : ∀ u, u ≠ idx →
      slabGet (slabSet s.entries idx (.res { r with referenced := true })) u
      = slabGet s.entries u := fun u hu => slabGet_slabSet_ne _ hu
  have hsame : ∀ ring : List Nat,
      ringW s.weighter (slabSet s.entries idx (.res { r with referenced := true })) ring
      = ringW s.weighter s.entries ring := by
    intro ring
    unfold ringW
    apply congrArg
    apply List.map_congr_left
    intro t _
    by_cases ht : t = idx
    · subst ht
      simp [tokW, hgetSelf, hget]
    · exact tokW_congr (hgetNe t ht)
  constructor
  case entNd => rw [hkeys]; exact hs.entNd
  case entFresh => rw [hkeys]; exact hs.entFresh
  case hotOK =>
    intro t ht
    obtain ⟨rt, hrt, hst⟩ := hs.hotOK t ht
    by_cases hti : t = idx
    · subst hti
      rw [hget] at hrt
      cases hrt
      exact ⟨{ r with referenced := true }, hgetSelf, hst⟩
    · exact ⟨rt, by rw [hgetNe t hti]; exact hrt, hst⟩
  case coldOK =>
    intro t ht
    obtain ⟨rt, hrt, hst⟩ := hs.coldOK t ht
    by_cases hti : t = idx
    · subst hti
      rw [hget] at hrt
      cases hrt
      exact ⟨{ r with referenced := true }, hgetSelf, hst⟩
    · exact ⟨rt, by rw [hgetNe t hti]; exact hrt, hst⟩
  case ghostOK =>
    intro t ht
    obtain ⟨g, hg⟩ := hs.ghostOK t ht
    by_cases hti : t = idx
    · subst hti
      rw [hget] at hg
      cases hg
    · exact ⟨g, by rw [hgetNe t hti]; exact hg⟩
  case hotNd => exact hs.hotNd
  case coldNd => exact hs.coldNd
  case ghostNd => exact hs.ghostNd
  case numHot => exact hs.numHot
  case numCold => exact hs.numCold
  case numGhost => exact hs.numGhost
  case wHot => rw [hsame]; exact hs.wHot
  case wCold => rw [hsame]; exact hs.wCold
  case mapRing =>
    intro q hq e hgetq
    by_cases hqi : q.2 = idx
    · rw [hqi, hgetSelf] at hgetq
      cases hgetq
      have hold := hs.mapRing q hq _ (hqi ▸ hget)
      rw [hqi] at hold ⊢
      simpa [tokInRing] using hold
    · rw [hgetNe q.2 hqi] at hgetq
      exact hs.mapRing q hq e hgetq
  case mapHash =>
    intro q hq
    have hold := hs.mapHash q hq
    by_cases hqi : q.2 = idx
    · rw [hqi] at hold ⊢
      simp only [hashOfTok, hget] at hold
      simp only [hashOfTok, hgetSelf]
      exact hold
    · simp only [hashOfTok, hgetNe q.2 hqi]
      exact hold
  case mapNd => exact hs.mapNd
  case statBudget => exact hs.statBudget
  case statTargetPos => exact hs.statTargetPos
  case statTargetLe => exact hs.statTargetLe

/-- `get` preserves well-formedness and all the weight fields. -/
theorem get_preserves {s : Shard} (hash key version : Nat) (hs : WF s) :
    WF (get s hash key version).2
    ∧ (get s hash key version).2.weight_hot = s.weight_hot
    ∧ (get s hash key version).2.weight_cold = s.weight_cold
    ∧ (get s hash key version).2.weight_capacity = s.weight_capacity := by
  rw [get]
  split
  · rename_i idx hse
    split
    · rename_i r hget
      exact ⟨WF_touchRes hs hget _, rfl, rfl, rfl⟩
    · exact ⟨WF_setMisses hs _, rfl, rfl, rfl⟩
  · exact ⟨WF_setMisses hs _, rfl, rfl, rfl⟩

theorem insertAdmit_fields (s : Shard) (hash key version value weight : Nat) (eh : Bool) :
    (insertAdmit s hash key version value weight eh).weight_hot
      + (insertAdmit s hash key version value weight eh).weight_cold
      = s.weight_hot + s.weight_cold + weight
    ∧ (insertAdmit s hash key version value weight eh).weight_capacity = s.weight_capacity
    ∧ (insertAdmit s hash key version value weight eh).hits = s.hits
    ∧ (insertAdmit s hash key version value weight eh).misses = s.misses := by
  cases eh <;> simp [insertAdmit] <;> omega

/-- Admitting a fresh entry preserves well-formedness, provided the hash
argument is the hash of the key and version and the weight argument is the
weighter value, as the cache facade guarantees. -/
theorem WF_insertAdmit {s : Shard} {hash key version value weight : Nat} (eh : Bool)
    (hs : WF s) (hh : hash = s.hashB key version)
    (hw : weight = s.weighter key version value) :
    WF (insertAdmit s hash key version value weight eh) := by
  have hfresh : slabGet s.entries s.nextTok = none := by
    apply slabGet_none_of_not_mem
    intro hmem
    exact absurd (hs.entFresh _ hmem) (by omega)
  have hnotHot : s.nextTok ∉ s.hotRing := by
    intro hmem
    obtain ⟨r, hr, _⟩ := hs.hotOK _ hmem
    rw [hfresh] at hr
    cases hr
  have hnotCold : s.nextTok ∉ s.coldRing := by
    intro hmem
    obtain ⟨r, hr, _⟩ := hs.coldOK _ hmem
    rw [hfresh] at hr
    cases hr
  have hnotGhost : s.nextTok ∉ s.ghostRing := by
    intro hmem
    obtain ⟨g, hg⟩ := hs.ghostOK _ hmem
    rw [hfresh] at hg
    cases hg
  have hnotMap : ∀ q ∈ s.mapIdx, q.2 ≠ s.nextTok := by
    intro q hq he
    have := hs.mapHash q hq
    rw [he] at this
    simp only [hashOfTok, hfresh] at this
    exact Option.noConfusion this
  have hgetOldOf : ∀ (R : Resident) (u : Nat) (e : Entry), slabGet s.entries u = some e →
      slabGet (s.entries ++ [(s.nextTok, Entry.res R)]) u = some e :=
    fun _ _ _ he => slabGet_append_left he
  have hgetNew : ∀ R : Resident,
      slabGet (s.entries ++ [(s.nextTok, Entry.res R)]) s.nextTok = some (.res R) := by
    intro R
    rw [slabGet_append_right hfresh]
    simp [slabGet]
  have hkeysApp : ∀ R : Resident, (s.entries ++ [(s.nextTok, Entry.res R)]).map Prod.fst
      = s.entries.map Prod.fst ++ [s.nextTok] := by
    intro R
    simp
  have hEntNd : ∀ R : Resident,
      ((s.entries ++ [(s.nextTok, Entry.res R)]).map Prod.fst).Nodup := by
    intro R
    rw [hkeysApp]
    rw [List.nodup_append]
    refine ⟨hs.entNd, by simp, ?_⟩
    intro t ht ht2
    simp only [List.mem_singleton] at ht2
    subst ht2
    exact absurd (hs.entFresh _ ht) (by omega)
  have hEntFresh : ∀ R : Resident, ∀ t ∈ (s.entries ++ [(s.nextTok, Entry.res R)]).map Prod.fst,
      t < s.nextTok + 1 := by
    intro R t ht
    rw [hkeysApp] at ht
    rcases List.mem_append.mp ht with h1 | h1
    · exact lt_trans (hs.entFresh _ h1) (by omega)
    · simp only [List.mem_singleton] at h1
      omega
  have hRingGet : ∀ (R : Resident) (ring : List Nat),
      (∀ t ∈ ring, t ≠ s.nextTok) →
      ∀ t ∈ ring, slabGet (s.entries ++ [(s.nextTok, Entry.res R)]) t = slabGet s.entries t := by
    intro R ring hne t ht
    cases hg : slabGet s.entries t with
    | some e => exact hgetOldOf R t e hg
    | none =>
      rw [slabGet_append_right hg]
      simp only [slabGet]
      rw [if_neg (fun hx => (hne t ht) hx.symm)]
  cases eh with
  | true =>
    show WF { s with
      num_hot := s.num_hot + 1
      weight_hot := s.weight_hot + weight
      hotRing := s.hotRing ++ [s.nextTok]
      entries := s.entries ++ [(s.nextTok, Entry.res
        { key := key, version := version, value := value, state := .Hot, referenced := false })]
      nextTok := s.nextTok + 1
      mapIdx := (hash, s.nextTok) :: s.mapIdx }
    constructor
    case entNd => exact hEntNd _
    case entFresh => exact hEntFresh _
    case hotOK =>
      intro t ht
      rcases List.mem_append.mp ht with h1 | h1
      · obtain ⟨rt, hrt, hst⟩ := hs.hotOK t h1
        exact ⟨rt, hgetOldOf _ t _ hrt, hst⟩
      · have : t = s.nextTok := by simpa using h1
        subst this
        exact ⟨_, hgetNew _, rfl⟩
    case coldOK =>
      intro t ht
      obtain ⟨rt, hrt, hst⟩ := hs.coldOK t ht
      exact ⟨rt, hgetOldOf _ t _ hrt, hst⟩
    case ghostOK =>
      intro t ht
      obtain ⟨g, hg⟩ := hs.ghostOK t ht
      exact ⟨g, hgetOldOf _ t _ hg⟩
    case hotNd =>
      rw [List.nodup_append]
      exact ⟨hs.hotNd, by simp, fun t ht ht2 => by
        simp only [List.mem_singleton] at ht2
        exact hnotHot (ht2 ▸ ht)⟩
    case coldNd => exact hs.coldNd
    case ghostNd => exact hs.ghostNd
    case numHot =>
      have := hs.numHot
      show s.num_hot + 1 = (s.hotRing ++ [s.nextTok]).length
      simp [this]
    case numCold => exact hs.numCold
    case numGhost => exact hs.numGhost
    case wHot =>
      show s.weight_hot + weight = ringW s.weighter _ (s.hotRing ++ [s.nextTok])
      rw [ringW_append, ringW_cons, ringW_nil]
      have h1 : ringW s.weighter
          (s.entries ++ [(s.nextTok, Entry.res
            { key := key, version := version, value := value, state := .Hot, referenced := false })])
          s.hotRing = ringW s.weighter s.entries s.hotRing :=
        ringW_congr (hRingGet _ _ (fun t ht he => hnotHot (he ▸ ht)))
      have h2 : tokW s.weighter
          (s.entries ++ [(s.nextTok, Entry.res
            { key := key, version := version, value := value, state := .Hot, referenced := false })])
          s.nextTok = s.weighter key version value := by
        simp [tokW, hgetNew]
      rw [h1, h2, ← hw, hs.wHot]
      omega
    case wCold =>
      have h1 : ringW s.weighter
          (s.entries ++ [(s.nextTok, Entry.res
            { key := key, version := version, value := value, state := .Hot, referenced := false })])
          s.coldRing = ringW s.weighter s.entries s.coldRing :=
        ringW_congr (hRingGet _ _ (fun t ht he => hnotCold (he ▸ ht)))
      show s.weight_cold = ringW s.weighter _ s.coldRing
      rw [h1]
      exact hs.wCold
    case mapRing =>
      intro q hq e hgetq
      rcases List.mem_cons.mp hq with h1 | h1
      · subst h1
        rw [hgetNew] at hgetq
        cases hgetq
        simp only [tokInRing, if_pos]
        exact List.mem_append.mpr (Or.inr (by simp))
      · have hne : q.2 ≠ s.nextTok := hnotMap q h1
        have hget2 : slabGet s.entries q.2 = some e := by
          cases hg : slabGet s.entries q.2 with
          | none =>
            rw [slabGet_append_right hg] at hgetq
            simp only [slabGet] at hgetq
            rw [if_neg (fun hx => hne hx.symm)] at hgetq
            cases hgetq
          | some e2 =>
            rw [hgetOldOf _ _ _ hg] at hgetq
            exact hgetq
        have hold := hs.mapRing q h1 e hget2
        cases e with
        | res rt =>
          simp only [tokInRing] at hold ⊢
          by_cases hst2 : rt.state = ResidentState.Hot
          · rw [if_pos hst2] at hold ⊢
            exact List.mem_append.mpr (Or.inl hold)
          · rw [if_neg hst2] at hold ⊢
            exact hold
        | ghost g => simpa [tokInRing] using hold
    case mapHash =>
      intro q hq
      rcases List.mem_cons.mp hq with h1 | h1
      · subst h1
        simp only [hashOfTok, hgetNew]
        rw [hh]
      · have hne : q.2 ≠ s.nextTok := hnotMap q h1
        have hold := hs.mapHash q h1
        simp only [hashOfTok] at hold ⊢
        cases hg : slabGet s.entries q.2 with
        | none => rw [hg] at hold; cases hold
        | some e2 =>
          rw [hg] at hold
          rw [hgetOldOf _ _ _ hg]
          exact hold
    case mapNd =>
      simp only [List.map_cons, List.nodup_cons]
      exact ⟨fun hmem => by
        obtain ⟨q, hq, hq2⟩ := List.mem_map.mp hmem
        exact hnotMap q hq hq2, hs.mapNd⟩
    case statBudget => exact hs.statBudget
    case statTargetPos => exact hs.statTargetPos
    case statTargetLe => exact hs.statTargetLe
  | false =>
    show WF { s with
      num_cold := s.num_cold + 1
      weight_cold := s.weight_cold + weight
      coldRing := s.coldRing ++ [s.nextTok]
      entries := s.entries ++ [(s.nextTok, Entry.res
        { key := key, version := version, value := value, state := .ColdInTest, referenced := false })]
      nextTok := s.nextTok + 1
      mapIdx := (hash, s.nextTok) :: s.mapIdx }
    constructor
    case entNd => exact hEntNd _
    case entFresh => exact hEntFresh _
    case hotOK =>
      intro t ht
      obtain ⟨rt, hrt, hst⟩ := hs.hotOK t ht
      exact ⟨rt, hgetOldOf _ t _ hrt, hst⟩
    case coldOK =>
      intro t ht
      rcases List.mem_append.mp ht with h1 | h1
      · obtain ⟨rt, hrt, hst⟩ := hs.coldOK t h1
        exact ⟨rt, hgetOldOf _ t _ hrt, hst⟩
      · have : t = s.nextTok := by simpa using h1
        subst this
        exact ⟨_, hgetNew _, by simp⟩
    case ghostOK =>
      intro t ht
      obtain ⟨g, hg⟩ := hs.ghostOK t ht
      exact ⟨g, hgetOldOf _ t _ hg⟩
    case hotNd => exact hs.hotNd
    case coldNd =>
      rw [List.nodup_append]
      exact ⟨hs.coldNd, by simp, fun t ht ht2 => by
        simp only [List.mem_singleton] at ht2
        exact hnotCold (ht2 ▸ ht)⟩
    case ghostNd => exact hs.ghostNd
    case numHot => exact hs.numHot
    case numCold =>
      have := hs.numCold
      show s.num_cold + 1 = (s.coldRing ++ [s.nextTok]).length
      simp [this]
    case numGhost => exact hs.numGhost
    case wHot =>
      have h1 : ringW s.weighter
          (s.entries ++ [(s.nextTok, Entry.res
            { key := key, version := version, value := value, state := .ColdInTest, referenced := false })])
          s.hotRing = ringW s.weighter s.entries s.hotRing :=
        ringW_congr (hRingGet _ _ (fun t ht he => hnotHot (he ▸ ht)))
      show s.weight_hot = ringW s.weighter _ s.hotRing
      rw [h1]
      exact hs.wHot
    case wCold =>
      show s.weight_cold + weight = ringW s.weighter _ (s.coldRing ++ [s.nextTok])
      rw [ringW_append, ringW_cons, ringW_nil]
      have h1 : ringW s.weighter
          (s.entries ++ [(s.nextTok, Entry.res
            { key := key, version := version, value := value, state := .ColdInTest, referenced := false })])
          s.coldRing = ringW s.weighter s.entries s.coldRing :=
        ringW_congr (hRingGet _ _ (fun t ht he => hnotCold (he ▸ ht)))
      have h2 : tokW s.weighter
          (s.entries ++ [(s.nextTok, Entry.res
            { key := key, version := version, value := value, state := .ColdInTest, referenced := false })])
          s.nextTok = s.weighter key version value := by
        simp [tokW, hgetNew]
      rw [h1, h2, ← hw, hs.wCold]
      omega
    case mapRing =>
      intro q hq e hgetq
      rcases List.mem_cons.mp hq with h1 | h1
      · subst h1
        rw [hgetNew] at hgetq
        cases hgetq
        simp only [tokInRing]
        rw [if_neg (by simp)]
        exact List.mem_append.mpr (Or.inr (by simp))
      · have hne : q.2 ≠ s.nextTok := hnotMap q h1
        have hget2 : slabGet s.entries q.2 = some e := by
          cases hg : slabGet s.entries q.2 with
          | none =>
            rw [slabGet_append_right hg] at hgetq
            simp only [slabGet] at hgetq
            rw [if_neg (fun hx => hne hx.symm)] at hgetq
            cases hgetq
          | some e2 =>
            rw [hgetOldOf _ _ _ hg] at hgetq
            exact hgetq
        have hold := hs.mapRing q h1 e hget2
        cases e with
        | res rt =>
          simp only [tokInRing] at hold ⊢
          by_cases hst2 : rt.state = ResidentState.Hot
          · rw [if_pos hst2] at hold ⊢
            exact hold
          · rw [if_neg hst2] at hold ⊢
            exact List.mem_append.mpr (Or.inl hold)
        | ghost g => simpa [tokInRing] using hold
    case mapHash =>
      intro q hq
      rcases List.mem_cons.mp hq with h1 | h1
      · subst h1
        simp only [hashOfTok, hgetNew]
        rw [hh]
      · have hne : q.2 ≠ s.nextTok := hnotMap q h1
        have hold := hs.mapHash q h1
        simp only [hashOfTok] at hold ⊢
        cases hg : slabGet s.entries q.2 with
        | none => rw [hg] at hold; cases hold
        | some e2 =>
          rw [hg] at hold
          rw [hgetOldOf _ _ _ hg]
          exact hold
    case mapNd =>
      simp only [List.map_cons, List.nodup_cons]
      exact ⟨fun hmem => by
        obtain ⟨q, hq, hq2⟩ := List.mem_map.mp hmem
        exact hnotMap q hq hq2, hs.mapNd⟩
    case statBudget => exact hs.statBudget
    case statTargetPos => exact hs.statTargetPos
    case statTargetLe => exact hs.statTargetLe

theorem WF_replaceResHot {s : Shard} {idx key version value weight h0 : Nat} {r : Resident}
    (hs : WF s) (hmem : (h0, idx) ∈ s.mapIdx)
    (hget : slabGet s.entries idx = some (.res r))
    (hkey : r.key = key) (hver : r.version = version)
    (hw : weight = s.weighter key version value)
    (hstate : r.state = ResidentState.Hot) :
    WF { s with
      weight_hot := s.weight_hot - weightOfR s r + weight
      entries := slabSet s.entries idx
        (.res { key := key, version := version, value := value, state := r.state, referenced := true }) } := by
  have hidxHot : idx ∈ s.hotRing := by
    have := hs.mapRing _ hmem _ hget
    simpa [tokInRing, hstate] using this
  have hidxNotCold : idx ∉ s.coldRing := hs.hot_not_cold hidxHot
  have hidxNotGhost : idx ∉ s.ghostRing := hs.hot_not_ghost hidxHot
  have hkeys := slabSet_keys s.entries idx
    (.res { key := key, version := version, value := value, state := r.state, referenced := true })
  have hgetSelf := slabGet_slabSet_self (l := s.entries) (t := idx)
    (e := Entry.res { key := key, version := version, value := value, state := r.state, referenced := true })
    hget
  have hgetNe : ∀ u, u ≠ idx →
      slabGet (slabSet s.entries idx (.res { key := key, version := version, value := value, state := r.state, referenced := true })) u
      = slabGet s.entries u := fun u hu => slabGet_slabSet_ne _ hu
  constructor
  case entNd => rw [hkeys]; exact hs.entNd
  case entFresh => rw [hkeys]; exact hs.entFresh
  case hotOK =>
    intro t ht
    by_cases hti : t = idx
    · subst hti
      exact ⟨_, hgetSelf, hstate⟩
    · obtain ⟨rt, hrt, hst⟩ := hs.hotOK t ht
      exact ⟨rt, by rw [hgetNe t hti]; exact hrt, hst⟩
  case coldOK =>
    intro t ht
    have hti : t ≠ idx := fun he => hidxNotCold (he ▸ ht)
    obtain ⟨rt, hrt, hst⟩ := hs.coldOK t ht
    exact ⟨rt, by rw [hgetNe t hti]; exact hrt, hst⟩
  case ghostOK =>
    intro t ht
    have hti : t ≠ idx := fun he => hidxNotGhost (he ▸ ht)
    obtain ⟨g, hg2⟩ := hs.ghostOK t ht
    exact ⟨g, by rw [hgetNe t hti]; exact hg2⟩
  case hotNd => exact hs.hotNd
  case coldNd => exact hs.coldNd
  case ghostNd => exact hs.ghostNd
  case numHot => exact hs.numHot
  case numCold => exact hs.numCold
  case numGhost => exact hs.numGhost
  case wHot =>
    have hOld : s.weight_hot = tokW s.weighter s.entries idx
        + ringW s.weighter s.entries (s.hotRing.erase idx) := by
      rw [hs.wHot]
      exact ringW_erase hidxHot
    have hNew : ringW s.weighter
        (slabSet s.entries idx (.res { key := key, version := version, value := value, state := r.state, referenced := true })) s.hotRing
        = weight + ringW s.weighter s.entries (s.hotRing.erase idx) := by
      rw [ringW_erase (l := slabSet s.entries idx (.res { key := key, version := version, value := value, state := r.state, referenced := true })) hidxHot]
      have h1 : tokW s.weighter (slabSet s.entries idx (.res { key := key, version := version, value := value, state := r.state, referenced := true })) idx = weight := by
        simp [tokW, hgetSelf, hw]
      have h2 : ringW s.weighter (slabSet s.entries idx (.res { key := key, version := version, value := value, state := r.state, referenced := true })) (s.hotRing.erase idx)
          = ringW s.weighter s.entries (s.hotRing.erase idx) :=
        ringW_congr (fun t ht => hgetNe t ((hs.hotNd.mem_erase_iff.mp ht).1))
      rw [h1, h2]
    have htk : tokW s.weighter s.entries idx = weightOfR s r := by
      simp [tokW, hget, weightOfR]
    show s.weight_hot - weightOfR s r + weight = _
    rw [hNew]
    omega
  case wCold =>
    have h2 : ringW s.weighter (slabSet s.entries idx (.res { key := key, version := version, value := value, state := r.state, referenced := true })) s.coldRing
        = ringW s.weighter s.entries s.coldRing :=
      ringW_congr (fun t ht => hgetNe t (fun he => hidxNotCold (he ▸ ht)))
    rw [h2]
    exact hs.wCold
  case mapRing =>
    intro q hq e hgetq
    by_cases hqi : q.2 = idx
    · rw [hqi, hgetSelf] at hgetq
      cases hgetq
      simp only [tokInRing, hstate, if_pos]
      rw [hqi]
      exact hidxHot
    · rw [hgetNe q.2 hqi] at hgetq
      exact hs.mapRing q hq e hgetq
  case mapHash =>
    intro q hq
    have hold := hs.mapHash q hq
    by_cases hqi : q.2 = idx
    · rw [hqi] at hold ⊢
      simp only [hashOfTok, hget] at hold
      simp only [hashOfTok, hgetSelf]
      rw [← hkey, ← hver]
      exact hold
    · simp only [hashOfTok, hgetNe q.2 hqi]
      exact hold
  case mapNd => exact hs.mapNd
  case statBudget => exact hs.statBudget
  case statTargetPos => exact hs.statTargetPos
  case statTargetLe => exact hs.statTargetLe

theorem WF_replaceResCold {s : Shard} {idx key version value weight h0 : Nat} {r : Resident}
    (hs : WF s) (hmem : (h0, idx) ∈ s.mapIdx)
    (hget : slabGet s.entries idx = some (.res r))
    (hkey : r.key = key) (hver : r.version = version)
    (hw : weight = s.weighter key version value)
    (hstate : ¬ r.state = ResidentState.Hot) :
    WF { s with
      weight_cold := s.weight_cold - weightOfR s r + weight
      entries := slabSet s.entries idx
        (.res { key := key, version := version, value := value, state := r.state, referenced := true }) } := by
  have hidxCold : idx ∈ s.coldRing := by
    have := hs.mapRing _ hmem _ hget
    simpa [tokInRing, hstate] using this
  have hidxNotHot : idx ∉ s.hotRing := fun hh => hs.hot_not_cold hh hidxCold
  have hidxNotGhost : idx ∉ s.ghostRing := hs.cold_not_ghost hidxCold
  have hkeys := slabSet_keys s.entries idx
    (.res { key := key, version := version, value := value, state := r.state, referenced := true })
  have hgetSelf := slabGet_slabSet_self (l := s.entries) (t := idx)
    (e := Entry.res { key := key, version := version, value := value, state := r.state, referenced := true })
    hget
  have hgetNe : ∀ u, u ≠ idx →
      slabGet (slabSet s.entries idx (.res { key := key, version := version, value := value, state := r.state, referenced := true })) u
      = slabGet s.entries u := fun u hu => slabGet_slabSet_ne _ hu
  constructor
  case entNd => rw [hkeys]; exact hs.entNd
  case entFresh => rw [hkeys]; exact hs.entFresh
  case hotOK =>
    intro t ht
    have hti : t ≠ idx := fun he => hidxNotHot (he ▸ ht)
    obtain ⟨rt, hrt, hst⟩ := hs.hotOK t ht
    exact ⟨rt, by rw [hgetNe t hti]; exact hrt, hst⟩
  case coldOK =>
    intro t ht
    by_cases hti : t = idx
    · subst hti
      exact ⟨_, hgetSelf, hstate⟩
    · obtain ⟨rt, hrt, hst⟩ := hs.coldOK t ht
      exact ⟨rt, by rw [hgetNe t hti]; exact hrt, hst⟩
  case ghostOK =>
    intro t ht
    have hti : t ≠ idx := fun he => hidxNotGhost (he ▸ ht)
    obtain ⟨g, hg2⟩ := hs.ghostOK t ht
    exact ⟨g, by rw [hgetNe t hti]; exact hg2⟩
  case hotNd => exact hs.hotNd
  case coldNd => exact hs.coldNd
  case ghostNd => exact hs.ghostNd
  case numHot => exact hs.numHot
  case numCold => exact hs.numCold
  case numGhost => exact hs.numGhost
  case wHot =>
    have h2 : ringW s.weighter (slabSet s.entries idx (.res { key := key, version := version, value := value, state := r.state, referenced := true })) s.hotRing
        = ringW s.weighter s.entries s.hotRing :=
      ringW_congr (fun t ht => hgetNe t (fun he => hidxNotHot (he ▸ ht)))
    rw [h2]
    exact hs.wHot
  case wCold =>
    have hOld : s.weight_cold = tokW s.weighter s.entries idx
        + ringW s.weighter s.entries (s.coldRing.erase idx) := by
      rw [hs.wCold]
      exact ringW_erase hidxCold
    have hNew : ringW s.weighter
        (slabSet s.entries idx (.res { key := key, version := version, value := value, state := r.state, referenced := true })) s.coldRing
        = weight + ringW s.weighter s.entries (s.coldRing.erase idx) := by
      rw [ringW_erase (l := slabSet s.entries idx (.res { key := key, version := version, value := value, state := r.state, referenced := true })) hidxCold]
      have h1 : tokW s.weighter (slabSet s.entries idx (.res { key := key, version := version, value := value, state := r.state, referenced := true })) idx = weight := by
        simp [tokW, hgetSelf, hw]
      have h2 : ringW s.weighter (slabSet s.entries idx (.res { key := key, version := version, value := value, state := r.state, referenced := true })) (s.coldRing.erase idx)
          = ringW s.weighter s.entries (s.coldRing.erase idx) :=
        ringW_congr (fun t ht => hgetNe t ((hs.coldNd.mem_erase_iff.mp ht).1))
      rw [h1, h2]
    have htk : tokW s.weighter s.entries idx = weightOfR s r := by
      simp [tokW, hget, weightOfR]
    show s.weight_cold - weightOfR s r + weight = _
    rw [hNew]
    omega
  case mapRing =>
    intro q hq e hgetq
    by_cases hqi : q.2 = idx
    · rw [hqi, hgetSelf] at hgetq
      cases hgetq
      simp only [tokInRing]
      rw [if_neg hstate]
      rw [hqi]
      exact hidxCold
    · rw [hgetNe q.2 hqi] at hgetq
      exact hs.mapRing q hq e hgetq
  case mapHash =>
    intro q hq
    have hold := hs.mapHash q hq
    by_cases hqi : q.2 = idx
    · rw [hqi] at hold ⊢
      simp only [hashOfTok, hget] at hold
      simp only [hashOfTok, hgetSelf]
      rw [← hkey, ← hver]
      exact hold
    · simp only [hashOfTok, hgetNe q.2 hqi]
      exact hold
  case mapNd => exact hs.mapNd
  case statBudget => exact hs.statBudget
  case statTargetPos => exact hs.statTargetPos
  case statTargetLe => exact hs.statTargetLe

theorem WF_resurrectGhost {s : Shard} {idx key version value weight h0 g : Nat}
    (hs : WF s) (hmem : (h0, idx) ∈ s.mapIdx)
    (hget : slabGet s.entries idx = some (.ghost g))
    (hg : g = s.hashB key version)
    (hw : weight = s.weighter key version value) :
    WF { s with
      entries := slabSet s.entries idx
        (.res { key := key, version := version, value := value, state := .Hot, referenced := false })
      num_non_resident := s.num_non_resident - 1
      num_hot := s.num_hot + 1
      weight_hot := s.weight_hot + weight
      ghostRing := s.ghostRing.erase idx
      hotRing := s.hotRing ++ [idx] } := by
  have hidxGhost : idx ∈ s.ghostRing := by
    have := hs.mapRing _ hmem _ hget
    simpa [tokInRing] using this
  have hidxNotHot : idx ∉ s.hotRing := by
    intro hmem2
    exact hs.hot_not_ghost hmem2 hidxGhost
  have hidxNotCold : idx ∉ s.coldRing := by
    intro hmem2
    exact hs.cold_not_ghost hmem2 hidxGhost
  have hkeys := slabSet_keys s.entries idx
    (.res { key := key, version := version, value := value, state := .Hot, referenced := false })
  have hgetSelf := slabGet_slabSet_self (l := s.entries) (t := idx)
    (e := Entry.res { key := key, version := version, value := value, state := .Hot, referenced := false })
    hget
  have hgetNe : ∀ u, u ≠ idx →
      slabGet (slabSet s.entries idx (.res { key := key, version := version, value := value, state := .Hot, referenced := false })) u
      = slabGet s.entries u := fun u hu => slabGet_slabSet_ne _ hu
  constructor
  case entNd => rw [hkeys]; exact hs.entNd
  case entFresh => rw [hkeys]; exact hs.entFresh
  case hotOK =>
    intro t ht
    rcases List.mem_append.mp ht with h1 | h1
    · have hti : t ≠ idx := fun he => hidxNotHot (he ▸ h1)
      obtain ⟨rt, hrt, hst⟩ := hs.hotOK t h1
      exact ⟨rt, by rw [hgetNe t hti]; exact hrt, hst⟩
    · have : t = idx := by simpa using h1
      subst this
      exact ⟨_, hgetSelf, rfl⟩
  case coldOK =>
    intro t ht
    have hti : t ≠ idx := fun he => hidxNotCold (he ▸ ht)
    obtain ⟨rt, hrt, hst⟩ := hs.coldOK t ht
    exact ⟨rt, by rw [hgetNe t hti]; exact hrt, hst⟩
  case ghostOK =>
    intro t ht
    obtain ⟨hti, ht2⟩ := hs.ghostNd.mem_erase_iff.mp ht
    obtain ⟨g2, hg2⟩ := hs.ghostOK t ht2
    exact ⟨g2, by rw [hgetNe t hti]; exact hg2⟩
  case hotNd =>
    rw [List.nodup_append]
    exact ⟨hs.hotNd, by simp, fun t ht ht2 => by
      simp only [List.mem_singleton] at ht2
      exact hidxNotHot (ht2 ▸ ht)⟩
  case coldNd => exact hs.coldNd
  case ghostNd => exact hs.ghostNd.erase idx
  case numHot =>
    have := hs.numHot
    show s.num_hot + 1 = (s.hotRing ++ [idx]).length
    simp [this]
  case numCold => exact hs.numCold
  case numGhost =>
    have h1 := hs.numGhost
    have h2 := List.length_erase_of_mem hidxGhost
    have h3 : 1 ≤ s.ghostRing.length := by
      cases hgr : s.ghostRing with
      | nil => rw [hgr] at hidxGhost; cases hidxGhost
      | cons a l => simp
    show s.num_non_resident - 1 = (s.ghostRing.erase idx).length
    omega
  case wHot =>
    show s.weight_hot + weight = ringW s.weighter _ (s.hotRing ++ [idx])
    rw [ringW_append, ringW_cons, ringW_nil]
    have h1 : ringW s.weighter (slabSet s.entries idx (.res { key := key, version := version, value := value, state := .Hot, referenced := false })) s.hotRing
        = ringW s.weighter s.entries s.hotRing :=
      ringW_congr (fun t ht => hgetNe t (fun he => hidxNotHot (he ▸ ht)))
    have h2 : tokW s.weighter (slabSet s.entries idx (.res { key := key, version := version, value := value, state := .Hot, referenced := false })) idx
        = s.weighter key version value := by
      simp [tokW, hgetSelf]
    rw [h1, h2, ← hw, hs.wHot]
    omega
  case wCold =>
    have h1 : ringW s.weighter (slabSet s.entries idx (.res { key := key, version := version, value := value, state := .Hot, referenced := false })) s.coldRing
        = ringW s.weighter s.entries s.coldRing :=
      ringW_congr (fun t ht => hgetNe t (fun he => hidxNotCold (he ▸ ht)))
    show s.weight_cold = ringW s.weighter _ s.coldRing
    rw [h1]
    exact hs.wCold
  case mapRing =>
    intro q hq e hgetq
    by_cases hqi : q.2 = idx
    · rw [hqi, hgetSelf] at hgetq
      cases hgetq
      simp only [tokInRing, if_pos]
      rw [hqi]
      exact List.mem_append.mpr (Or.inr (by simp))
    · rw [hgetNe q.2 hqi] at hgetq
      have hold := hs.mapRing q hq e hgetq
      cases e with
      | res rt =>
        simp only [tokInRing] at hold ⊢
        by_cases hst2 : rt.state = ResidentState.Hot
        · rw [if_pos hst2] at hold ⊢
          exact List.mem_append.mpr (Or.inl hold)
        · rw [if_neg hst2] at hold ⊢
          exact hold
      | ghost g2 =>
        simp only [tokInRing] at hold ⊢
        exact (List.mem_erase_of_ne hqi).mpr hold
  case mapHash =>
    intro q hq
    have hold := hs.mapHash q hq
    by_cases hqi : q.2 = idx
    · rw [hqi] at hold ⊢
      simp only [hashOfTok, hget] at hold
      simp only [hashOfTok, hgetSelf]
      rw [← hg]
      exact hold
    · simp only [hashOfTok, hgetNe q.2 hqi]
      exact hold
  case mapNd => exact hs.mapNd
  case statBudget => exact hs.statBudget
  case statTargetPos => exact hs.statTargetPos
  case statTargetLe => exact hs.statTargetLe

theorem insert_existing_preserves {s : Shard} {idx key version value weight hash : Nat}
    {out : Option Resident × Shard}
    (h : insert_existing s idx key version value weight = some out)
    (hs : WF s)
    (hmem : (hash, idx) ∈ s.mapIdx)
    (hseq : searchEq s hash key version idx = true)
    (hh : hash = s.hashB key version)
    (hw : weight = s.weighter key version value) :
    WF out.2 ∧ out.2.weight_hot + out.2.weight_cold ≤ out.2.weight_capacity
    ∧ out.2.hits = s.hits ∧ out.2.misses = s.misses := by
  simp only [insert_existing] at h
  split at h
  · simp at h
  · rename_i r heqg
    obtain ⟨hkey, hver⟩ := searchEq_res heqg hseq
    by_cases hstate : r.state = ResidentState.Hot
    · rw [if_pos hstate] at h
      dsimp only at h
      have hwf2 := WF_replaceResHot hs hmem heqg hkey hver hw hstate
      obtain ⟨hd, hbound⟩ := insertExistingLoop_spec _ _ _ _ h hwf2
      refine ⟨hd.wf, hbound, ?_, ?_⟩
      · rw [hd.hitsEq]
      · rw [hd.missesEq]
    · rw [if_neg hstate] at h
      dsimp only at h
      have hwf2 := WF_replaceResCold hs hmem heqg hkey hver hw hstate
      obtain ⟨hd, hbound⟩ := insertExistingLoop_spec _ _ _ _ h hwf2
      refine ⟨hd.wf, hbound, ?_, ?_⟩
      · rw [hd.hitsEq]
      · rw [hd.missesEq]
  · rename_i g heqg
    have hg : g = s.hashB key version := by
      rw [← hh]
      exact searchEq_ghost heqg hseq
    have hwf2 := WF_resurrectGhost hs hmem heqg hg hw
    obtain ⟨hd, hbound⟩ := insertExistingLoop_spec _ _ _ _ h hwf2
    refine ⟨hd.wf, hbound, ?_, ?_⟩
    · rw [hd.hitsEq]
    · rw [hd.missesEq]

theorem insert_preserves {s : Shard} {hash key version value : Nat}
    {out : Option Resident × Shard}
    (h : insert s hash key version value = some out) (hs : WF s)
    (hcap : s.weight_hot + s.weight_cold ≤ s.weight_capacity)
    (hh : hash = s.hashB key version) :
    WF out.2 ∧ out.2.weight_hot + out.2.weight_cold ≤ out.2.weight_capacity
    ∧ out.2.hits = s.hits ∧ out.2.misses = s.misses := by
  simp only [insert] at h
  split at h
  · cases h
    exact ⟨hs, hcap, rfl, rfl⟩
  · rename_i hfit
    split at h
    · rename_i idx hse
      obtain ⟨hmem, hseq⟩ := search_some hse
      exact insert_existing_preserves h hs hmem hseq hh rfl
    · rename_i hse
      split at h
      · rename_i hfull
        split at h
        · rename_i rp s1 hloop
          obtain ⟨hd, hbound⟩ := insertEvictLoop_spec _ _ _ _ hloop hs
          injection h with h2
          subst h2
          have hhh : hash = s1.hashB key version := by rw [hd.hashBEq]; exact hh
          have hww : s.weighter key version value = s1.weighter key version value := by
            rw [hd.wtrEq]
          obtain ⟨ht1, ht2, ht3, ht4⟩ := insertAdmit_fields s1 hash key version value
            (s.weighter key version value) false
          refine ⟨WF_insertAdmit false hd.wf hhh hww, ?_, ?_, ?_⟩
          · rw [ht1, ht2]
            exact hbound
          · rw [ht3, hd.hitsEq]
          · rw [ht4, hd.missesEq]
        · simp at h
      · rename_i hfull
        split at h
        · rename_i heh
          injection h with h2
          subst h2
          obtain ⟨ht1, ht2, ht3, ht4⟩ := insertAdmit_fields s hash key version value
            (s.weighter key version value) true
          refine ⟨WF_insertAdmit true hs hh rfl, ?_, ?_, ?_⟩
          · rw [ht1, ht2]
            omega
          · rw [ht3]
          · rw [ht4]
        · rename_i heh
          injection h with h2
          subst h2
          have hwf0 := WF_setCapNr hs (((s.weight_hot + s.weight_hot / 8) / s.num_hot) / 2)
          obtain ⟨ht1, ht2, ht3, ht4⟩ := insertAdmit_fields
            { s with capacity_non_resident := ((s.weight_hot + s.weight_hot / 8) / s.num_hot) / 2 }
            hash key version value (s.weighter key version value) false
          refine ⟨WF_insertAdmit false hwf0 hh rfl, ?_, ?_, ?_⟩
          · rw [ht1, ht2]
            show s.weight_hot + s.weight_cold + s.weighter key version value ≤ s.weight_capacity
            omega
          · rw [ht3]
          · rw [ht4]

theorem WF_removeResHot {s : Shard} {idx hash : Nat} {r : Resident}
    (hs : WF s) (hmem : (hash, idx) ∈ s.mapIdx)
    (hget : slabGet s.entries idx = some (.res r))
    (hsh : s.hashB r.key r.version = hash)
    (hstate : r.state = ResidentState.Hot) :
    WF { s with
      mapIdx := mapErase s.mapIdx hash idx
      entries := slabRemove s.entries idx
      num_hot := s.num_hot - 1
      weight_hot := s.weight_hot - weightOfR s r
      hotRing := s.hotRing.erase idx } := by
  have hidxHot : idx ∈ s.hotRing := by
    have := hs.mapRing _ hmem _ hget
    simpa [tokInRing, hstate] using this
  have hidxNotCold : idx ∉ s.coldRing := hs.hot_not_cold hidxHot
  have hidxNotGhost : idx ∉ s.ghostRing := hs.hot_not_ghost hidxHot
  have hgetNe : ∀ u, u ≠ idx →
      slabGet (slabRemove s.entries idx) u = slabGet s.entries u :=
    fun u hu => slabGet_slabRemove_ne hu
  have hkeysSub : List.Sublist ((slabRemove s.entries idx).map Prod.fst)
      (s.entries.map Prod.fst) := (slabRemove_sublist _ _).map Prod.fst
  have hclear : ∀ q ∈ mapErase s.mapIdx hash idx, q.2 ≠ idx := by
    apply mapErase_clears_tok hs.mapNd
    intro q hq hq2
    have := hs.mapHash q hq
    rw [hq2] at this
    simp only [hashOfTok, hget] at this
    rw [← hsh]
    exact (Option.some.inj this).symm
  constructor
  case entNd => exact hs.entNd.sublist hkeysSub
  case entFresh => exact fun t ht => hs.entFresh t (hkeysSub.mem ht)
  case hotOK =>
    intro t ht
    obtain ⟨hti, ht2⟩ := hs.hotNd.mem_erase_iff.mp ht
    obtain ⟨rt, hrt, hst⟩ := hs.hotOK t ht2
    exact ⟨rt, by rw [hgetNe t hti]; exact hrt, hst⟩
  case coldOK =>
    intro t ht
    have hti : t ≠ idx := fun he => hidxNotCold (he ▸ ht)
    obtain ⟨rt, hrt, hst⟩ := hs.coldOK t ht
    exact ⟨rt, by rw [hgetNe t hti]; exact hrt, hst⟩
  case ghostOK =>
    intro t ht
    have hti : t ≠ idx := fun he => hidxNotGhost (he ▸ ht)
    obtain ⟨g, hg⟩ := hs.ghostOK t ht
    exact ⟨g, by rw [hgetNe t hti]; exact hg⟩
  case hotNd => exact hs.hotNd.erase idx
  case coldNd => exact hs.coldNd
  case ghostNd => exact hs.ghostNd
  case numHot =>
    have h1 := hs.numHot
    have h2 := List.length_erase_of_mem hidxHot
    have h3 : 1 ≤ s.hotRing.length := by
      cases hgr : s.hotRing with
      | nil => rw [hgr] at hidxHot; cases hidxHot
      | cons a l => simp
    show s.num_hot - 1 = (s.hotRing.erase idx).length
    omega
  case numCold => exact hs.numCold
  case numGhost => exact hs.numGhost
  case wHot =>
    have hOld : s.weight_hot = tokW s.weighter s.entries idx
        + ringW s.weighter s.entries (s.hotRing.erase idx) := by
      rw [hs.wHot]
      exact ringW_erase hidxHot
    have h2 : ringW s.weighter (slabRemove s.entries idx) (s.hotRing.erase idx)
        = ringW s.weighter s.entries (s.hotRing.erase idx) :=
      ringW_congr (fun t ht => hgetNe t ((hs.hotNd.mem_erase_iff.mp ht).1))
    have htk : tokW s.weighter s.entries idx = weightOfR s r := by
      simp [tokW, hget, weightOfR]
    show s.weight_hot - weightOfR s r = ringW s.weighter (slabRemove s.entries idx) (s.hotRing.erase idx)
    rw [h2]
    omega
  case wCold =>
    have h2 : ringW s.weighter (slabRemove s.entries idx) s.coldRing
        = ringW s.weighter s.entries s.coldRing :=
      ringW_congr (fun t ht => hgetNe t (fun he => hidxNotCold (he ▸ ht)))
    rw [h2]
    exact hs.wCold
  case mapRing =>
    intro q hq e hgetq
    have hqm : q ∈ s.mapIdx := (mapErase_sublist _ _ _).mem hq
    have hne : q.2 ≠ idx := hclear q hq
    rw [hgetNe q.2 hne] at hgetq
    have hold := hs.mapRing q hqm e hgetq
    cases e with
    | res rt =>
      simp only [tokInRing] at hold ⊢
      by_cases hst2 : rt.state = ResidentState.Hot
      · rw [if_pos hst2] at hold ⊢
        exact (List.mem_erase_of_ne hne).mpr hold
      · rw [if_neg hst2] at hold ⊢
        exact hold
    | ghost g => simpa [tokInRing] using hold
  case mapHash =>
    intro q hq
    have hqm : q ∈ s.mapIdx := (mapErase_sublist _ _ _).mem hq
    have hne : q.2 ≠ idx := hclear q hq
    have hold := hs.mapHash q hqm
    simp only [hashOfTok, hgetNe q.2 hne]
    exact hold
  case mapNd => exact hs.mapNd.sublist ((mapErase_sublist _ _ _).map Prod.snd)
  case statBudget => exact hs.statBudget
  case statTargetPos => exact hs.statTargetPos
  case statTargetLe => exact hs.statTargetLe

theorem WF_removeResCold {s : Shard} {idx hash : Nat} {r : Resident}
    (hs : WF s) (hmem : (hash, idx) ∈ s.mapIdx)
    (hget : slabGet s.entries idx = some (.res r))
    (hsh : s.hashB r.key r.version = hash)
    (hstate : ¬ r.state = ResidentState.Hot) :
    WF { s with
      mapIdx := mapErase s.mapIdx hash idx
      entries := slabRemove s.entries idx
      num_cold := s.num_cold - 1
      weight_cold := s.weight_cold - weightOfR s r
      coldRing := s.coldRing.erase idx } := by
  have hidxCold : idx ∈ s.coldRing := by
    have := hs.mapRing _ hmem _ hget
    simpa [tokInRing, hstate] using this
  have hidxNotHot : idx ∉ s.hotRing := fun hh => hs.hot_not_cold hh hidxCold
  have hidxNotGhost : idx ∉ s.ghostRing := hs.cold_not_ghost hidxCold
  have hgetNe : ∀ u, u ≠ idx →
      slabGet (slabRemove s.entries idx) u = slabGet s.entries u :=
    fun u hu => slabGet_slabRemove_ne hu
  have hkeysSub : List.Sublist ((slabRemove s.entries idx).map Prod.fst)
      (s.entries.map Prod.fst) := (slabRemove_sublist _ _).map Prod.fst
  have hclear : ∀ q ∈ mapErase s.mapIdx hash idx, q.2 ≠ idx := by
    apply mapErase_clears_tok hs.mapNd
    intro q hq hq2
    have := hs.mapHash q hq
    rw [hq2] at this
    simp only [hashOfTok, hget] at this
    rw [← hsh]
    exact (Option.some.inj this).symm
  constructor
  case entNd => exact hs.entNd.sublist hkeysSub
  case entFresh => exact fun t ht => hs.entFresh t (hkeysSub.mem ht)
  case hotOK =>
    intro t ht
    have hti : t ≠ idx := fun he => hidxNotHot (he ▸ ht)
    obtain ⟨rt, hrt, hst⟩ := hs.hotOK t ht
    exact ⟨rt, by rw [hgetNe t hti]; exact hrt, hst⟩
  case coldOK =>
    intro t ht
    obtain ⟨hti, ht2⟩ := hs.coldNd.mem_erase_iff.mp ht
    obtain ⟨rt, hrt, hst⟩ := hs.coldOK t ht2
    exact ⟨rt, by rw [hgetNe t hti]; exact hrt, hst⟩
  case ghostOK =>
    intro t ht
    have hti : t ≠ idx := fun he => hidxNotGhost (he ▸ ht)
    obtain ⟨g, hg⟩ := hs.ghostOK t ht
    exact ⟨g, by rw [hgetNe t hti]; exact hg⟩
  case hotNd => exact hs.hotNd
  case coldNd => exact hs.coldNd.erase idx
  case ghostNd => exact hs.ghostNd
  case numHot => exact hs.numHot
  case numCold =>
    have h1 := hs.numCold
    have h2 := List.length_erase_of_mem hidxCold
    have h3 : 1 ≤ s.coldRing.length := by
      cases hgr : s.coldRing with
      | nil => rw [hgr] at hidxCold; cases hidxCold
      | cons a l => simp
    show s.num_cold - 1 = (s.coldRing.erase idx).length
    omega
  case numGhost => exact hs.numGhost
  case wHot =>
    have h2 : ringW s.weighter (slabRemove s.entries idx) s.hotRing
        = ringW s.weighter s.entries s.hotRing :=
      ringW_congr (fun t ht => hgetNe t (fun he => hidxNotHot (he ▸ ht)))
    rw [h2]
    exact hs.wHot
  case wCold =>
    have hOld : s.weight_cold = tokW s.weighter s.entries idx
        + ringW s.weighter s.entries (s.coldRing.erase idx) := by
      rw [hs.wCold]
      exact ringW_erase hidxCold
    have h2 : ringW s.weighter (slabRemove s.entries idx) (s.coldRing.erase idx)
        = ringW s.weighter s.entries (s.coldRing.erase idx) :=
      ringW_congr (fun t ht => hgetNe t ((hs.coldNd.mem_erase_iff.mp ht).1))
    have htk : tokW s.weighter s.entries idx = weightOfR s r := by
      simp [tokW, hget, weightOfR]
    show s.weight_cold - weightOfR s r = ringW s.weighter (slabRemove s.entries idx) (s.coldRing.erase idx)
    rw [h2]
    omega
  case mapRing =>
    intro q hq e hgetq
    have hqm : q ∈ s.mapIdx := (mapErase_sublist _ _ _).mem hq
    have hne : q.2 ≠ idx := hclear q hq
    rw [hgetNe q.2 hne] at hgetq
    have hold := hs.mapRing q hqm e hgetq
    cases e with
    | res rt =>
      simp only [tokInRing] at hold ⊢
      by_cases hst2 : rt.state = ResidentState.Hot
      · rw [if_pos hst2] at hold ⊢
        exact hold
      · rw [if_neg hst2] at hold ⊢
        exact (List.mem_erase_of_ne hne).mpr hold
    | ghost g => simpa [tokInRing] using hold
  case mapHash =>
    intro q hq
    have hqm : q ∈ s.mapIdx := (mapErase_sublist _ _ _).mem hq
    have hne : q.2 ≠ idx := hclear q hq
    have hold := hs.mapHash q hqm
    simp only [hashOfTok, hgetNe q.2 hne]
    exact hold
  case mapNd => exact hs.mapNd.sublist ((mapErase_sublist _ _ _).map Prod.snd)
  case statBudget => exact hs.statBudget
  case statTargetPos => exact hs.statTargetPos
  case statTargetLe => exact hs.statTargetLe

theorem WF_removeGhost {s : Shard} {idx hash g : Nat}
    (hs : WF s) (hmem : (hash, idx) ∈ s.mapIdx)
    (hget : slabGet s.entries idx = some (.ghost g))
    (hsh : g = hash) :
    WF { s with
      mapIdx := mapErase s.mapIdx hash idx
      entries := slabRemove s.entries idx
      num_non_resident := s.num_non_resident - 1
      ghostRing := s.ghostRing.erase idx } := by
  have hidxGhost : idx ∈ s.ghostRing := by
    have := hs.mapRing _ hmem _ hget
    simpa [tokInRing] using this
  have hidxNotHot : idx ∉ s.hotRing := by
    intro hmem2
    exact hs.hot_not_ghost hmem2 hidxGhost
  have hidxNotCold : idx ∉ s.coldRing := by
    intro hmem2
    exact hs.cold_not_ghost hmem2 hidxGhost
  have hgetNe : ∀ u, u ≠ idx →
      slabGet (slabRemove s.entries idx) u = slabGet s.entries u :=
    fun u hu => slabGet_slabRemove_ne hu
  have hkeysSub : List.Sublist ((slabRemove s.entries idx).map Prod.fst)
      (s.entries.map Prod.fst) := (slabRemove_sublist _ _).map Prod.fst
  have hclear : ∀ q ∈ mapErase s.mapIdx hash idx, q.2 ≠ idx := by
    apply mapErase_clears_tok hs.mapNd
    intro q hq hq2
    have := hs.mapHash q hq
    rw [hq2] at this
    simp only [hashOfTok, hget] at this
    rw [← hsh]
    exact (Option.some.inj this).symm
  constructor
  case entNd => exact hs.entNd.sublist hkeysSub
  case entFresh => exact fun t ht => hs.entFresh t (hkeysSub.mem ht)
  case hotOK =>
    intro t ht
    have hti : t ≠ idx := fun he => hidxNotHot (he ▸ ht)
    obtain ⟨rt, hrt, hst⟩ := hs.hotOK t ht
    exact ⟨rt, by rw [hgetNe t hti]; exact hrt, hst⟩
  case coldOK =>
    intro t ht
    have hti : t ≠ idx := fun he => hidxNotCold (he ▸ ht)
    obtain ⟨rt, hrt, hst⟩ := hs.coldOK t ht
    exact ⟨rt, by rw [hgetNe t hti]; exact hrt, hst⟩
  case ghostOK =>
    intro t ht
    obtain ⟨hti, ht2⟩ := hs.ghostNd.mem_erase_iff.mp ht
    obtain ⟨g2, hg2⟩ := hs.ghostOK t ht2
    exact ⟨g2, by rw [hgetNe t hti]; exact hg2⟩
  case hotNd => exact hs.hotNd
  case coldNd => exact hs.coldNd
  case ghostNd => exact hs.ghostNd.erase idx
  case numHot => exact hs.numHot
  case numCold => exact hs.numCold
  case numGhost =>
    have h1 := hs.numGhost
    have h2 := List.length_erase_of_mem hidxGhost
    have h3 : 1 ≤ s.ghostRing.length := by
      cases hgr : s.ghostRing with
      | nil => rw [hgr] at hidxGhost; cases hidxGhost
      | cons a l => simp
    show s.num_non_resident - 1 = (s.ghostRing.erase idx).length
    omega
  case wHot =>
    have h2 : ringW s.weighter (slabRemove s.entries idx) s.hotRing
        = ringW s.weighter s.entries s.hotRing :=
      ringW_congr (fun t ht => hgetNe t (fun he => hidxNotHot (he ▸ ht)))
    rw [h2]
    exact hs.wHot
  case wCold =>
    have h2 : ringW s.weighter (slabRemove s.entries idx) s.coldRing
        = ringW s.weighter s.entries s.coldRing :=
      ringW_congr (fun t ht => hgetNe t (fun he => hidxNotCold (he ▸ ht)))
    rw [h2]
    exact hs.wCold
  case mapRing =>
    intro q hq e hgetq
    have hqm : q ∈ s.mapIdx := (mapErase_sublist _ _ _).mem hq
    have hne : q.2 ≠ idx := hclear q hq
    rw [hgetNe q.2 hne] at hgetq
    have hold := hs.mapRing q hqm e hgetq
    cases e with
    | res rt =>
      simp only [tokInRing] at hold ⊢
      by_cases hst2 : rt.state = ResidentState.Hot
      · rw [if_pos hst2] at hold ⊢
        exact hold
      · rw [if_neg hst2] at hold ⊢
        exact hold
    | ghost g2 =>
      simp only [tokInRing] at hold ⊢
      exact (List.mem_erase_of_ne hne).mpr hold
  case mapHash =>
    intro q hq
    have hqm : q ∈ s.mapIdx := (mapErase_sublist _ _ _).mem hq
    have hne : q.2 ≠ idx := hclear q hq
    have hold := hs.mapHash q hqm
    simp only [hashOfTok, hgetNe q.2 hne]
    exact hold
  case mapNd => exact hs.mapNd.sublist ((mapErase_sublist _ _ _).map Prod.snd)
  case statBudget => exact hs.statBudget
  case statTargetPos => exact hs.statTargetPos
  case statTargetLe => exact hs.statTargetLe

theorem remove_preserves {s : Shard} {hash key version : Nat}
    {out : Option Entry × Shard}
    (h : remove s hash key version = some out) (hs : WF s)
    (hh : hash = s.hashB key version) :
    WF out.2 ∧ out.2.weight_hot + out.2.weight_cold ≤ s.weight_hot + s.weight_cold
    ∧ out.2.weight_capacity = s.weight_capacity
    ∧ out.2.hits = s.hits ∧ out.2.misses = s.misses := by
  simp only [remove] at h
  split at h
  · injection h with h2
    subst h2
    exact ⟨hs, le_refl _, rfl, rfl, rfl⟩
  · rename_i idx hse
    obtain ⟨hmem, hseq⟩ := search_some hse
    split at h
    · simp at h
    · rename_i e heqg
      split at h
      · rename_i r
        split at h
        · rename_i hstate
          injection h with h2
          subst h2
          obtain ⟨hkey, hver⟩ := searchEq_res heqg hseq
          have hsh : s.hashB r.key r.version = hash := by
            rw [hkey, hver, hh]
          refine ⟨WF_removeResHot hs hmem heqg hsh hstate, ?_, rfl, rfl, rfl⟩
          show s.weight_hot - weightOfR s r + s.weight_cold ≤ s.weight_hot + s.weight_cold
          omega
        · rename_i hstate
          injection h with h2
          subst h2
          obtain ⟨hkey, hver⟩ := searchEq_res heqg hseq
          have hsh : s.hashB r.key r.version = hash := by
            rw [hkey, hver, hh]
          refine ⟨WF_removeResCold hs hmem heqg hsh hstate, ?_, rfl, rfl, rfl⟩
          show s.weight_hot + (s.weight_cold - weightOfR s r) ≤ s.weight_hot + s.weight_cold
          omega
      · rename_i g
        injection h with h2
        subst h2
        have hsh : g = hash := searchEq_ghost heqg hseq
        exact ⟨WF_removeGhost hs hmem heqg hsh, le_refl _, rfl, rfl, rfl⟩

theorem newShard_WF (max_capacity : Nat) (wtr : Nat → Nat → Nat → Nat)
    (hb : Nat → Nat → Nat) : WF (newShard max_capacity wtr hb) := by
  constructor
  case entNd => simp [newShard]
  case entFresh => simp [newShard]
  case hotOK => simp [newShard]
  case coldOK => simp [newShard]
  case ghostOK => simp [newShard]
  case hotNd => simp [newShard]
  case coldNd => simp [newShard]
  case ghostNd => simp [newShard]
  case numHot => simp [newShard]
  case numCold => simp [newShard]
  case numGhost => simp [newShard]
  case wHot => simp [newShard, ringW_nil]
  case wCold => simp [newShard, ringW_nil]
  case mapRing => simp [newShard]
  case mapHash => simp [newShard]
  case mapNd => simp [newShard]
  case statBudget =>
    show max max_capacity 2 - (max max_capacity 2 - max (max max_capacity 2 / 100) 1)
      ≤ max max_capacity 2 - max (max max_capacity 2 / 100) 1
    omega
  case statTargetPos =>
    show 1 ≤ max max_capacity 2 - max (max max_capacity 2 / 100) 1
    omega
  case statTargetLe =>
    show max max_capacity 2 - max (max max_capacity 2 / 100) 1 ≤ max max_capacity 2
    omega

theorem newShard_weights (max_capacity : Nat) (wtr : Nat → Nat → Nat → Nat)
    (hb : Nat → Nat → Nat) :
    (newShard max_capacity wtr hb).weight_hot = 0
    ∧ (newShard max_capacity wtr hb).weight_cold = 0
    ∧ (newShard max_capacity wtr hb).hits = 0
    ∧ (newShard max_capacity wtr hb).misses = 0 := by
  refine ⟨rfl, rfl, rfl, rfl⟩

theorem applyOp_preserves {s s1 : Shard} {op : Op} (h : applyOp s op = some s1)
    (hs : WF s) (hcap : s.weight_hot + s.weight_cold ≤ s.weight_capacity) :
    WF s1 ∧ s1.weight_hot + s1.weight_cold ≤ s1.weight_capacity := by
  cases op with
  | insert k v val =>
    simp only [applyOp] at h
    cases hi : insert s (s.hashB k v) k v val with
    | none => rw [hi] at h; simp at h
    | some out =>
      rw [hi] at h
      have h2 : out.2 = s1 := Option.some.inj h
      subst h2
      obtain ⟨h1, h2, _, _⟩ := insert_preserves hi hs hcap rfl
      exact ⟨h1, h2⟩
  | remove k v =>
    simp only [applyOp] at h
    cases hi : remove s (s.hashB k v) k v with
    | none => rw [hi] at h; simp at h
    | some out =>
      rw [hi] at h
      have h2 : out.2 = s1 := Option.some.inj h
      subst h2
      obtain ⟨h1, h2, h3, _, _⟩ := remove_preserves hi hs rfl
      exact ⟨h1, by omega⟩
  | get k v =>
    simp only [applyOp] at h
    injection h with h2
    subst h2
    obtain ⟨h1, h2, h3, h4⟩ := get_preserves (s.hashB k v) k v hs
    exact ⟨h1, by omega⟩
  | peek k v =>
    simp only [applyOp] at h
    injection h with h2
    subst h2
    exact ⟨hs, hcap⟩
  | reserve n =>
    simp only [applyOp, reserve] at h
    injection h with h2
    subst h2
    exact ⟨hs, hcap⟩

theorem runOps_preserves : ∀ (ops : List Op) (s s1 : Shard), runOps s ops = some s1 →
    WF s → s.weight_hot + s.weight_cold ≤ s.weight_capacity →
    WF s1 ∧ s1.weight_hot + s1.weight_cold ≤ s1.weight_capacity := by
  intro ops
  induction ops with
  | nil =>
    intro s s1 h hs hcap
    cases h
    exact ⟨hs, hcap⟩
  | cons op rest ih =>
    intro s s1 h hs hcap
    simp only [runOps] at h
    split at h
    · rename_i s2 hop
      obtain ⟨h1, h2⟩ := applyOp_preserves hop hs hcap
      exact ih _ _ h h1 h2
    · simp at h

/-- States reachable from a fresh shard through the public cache API. -/
def Reachable (s : Shard) : Prop :=
  ∃ (max_capacity : Nat) (wtr : Nat → Nat → Nat → Nat) (hb : Nat → Nat → Nat)
    (ops : List Op), runOps (newShard max_capacity wtr hb) ops = some s

theorem reachable_inv {s : Shard} (h : Reachable s) :
    WF s ∧ s.weight_hot + s.weight_cold ≤ s.weight_capacity := by
  obtain ⟨cap, wtr, hb, ops, hrun⟩ := h
  exact runOps_preserves ops _ _ hrun (newShard_WF cap wtr hb) (by simp [newShard])

/-! Concrete weighters, hash builders and operation sequences used by the
scenario claims. -/

/-- The unit weighter of the library (`UnitWeighter`). -/
def unitWeighter : Nat → Nat → Nat → Nat := fun _ _ _ => 1

/-- An injective hash builder: the hash of a key and version is the key. -/
def keyHash : Nat → Nat → Nat := fun k _ => k

/-- Weighter for the ghost-budget scenario: keys below 200 weigh 4, the
rest weigh 1. -/
def stepWeighter : Nat → Nat → Nat → Nat := fun k _ _ => if k < 200 then 4 else 1

/-- Scenario S2 of the spec: capacity 2, unit weights, insert three
distinct keys. -/
def opsS2 : List Op := [Op.insert 0 0 10, Op.insert 1 0 11, Op.insert 2 0 12]

/-- Fill a capacity-400 shard with ninety-nine heavy entries, then spill
one heavy entry into COLD (the first ghost-budget computation). -/
def opsGA : List Op :=
  ((List.range 99).map (fun i => Op.insert i 0 i)) ++ [Op.insert 99 0 99]

/-- Accumulate two ghosts, then lighten the hot ring with removes and light
inserts, and spill again (the second ghost-budget computation). -/
def opsGB : List Op :=
  [Op.insert 100 0 100, Op.insert 101 0 101, Op.remove 101 0]
    ++ ((List.range 20).map (fun i => Op.remove i 0))
    ++ ((List.range 80).map (fun i => Op.insert (200 + i) 0 i))
    ++ [Op.insert 500 0 500]

/-- C1: after every completed public operation (insert, remove, get, peek,
reserve) starting from a fresh shard, the total resident weight
`weight_hot + weight_cold` is bounded by the capacity `W`. -/
theorem C1_total_weight_bounded (max_capacity : Nat) (wtr : Nat → Nat → Nat → Nat)
    (hb : Nat → Nat → Nat) (ops : List Op) (s : Shard)
    (h : runOps (newShard max_capacity wtr hb) ops = some s) :
    s.weight_hot + s.weight_cold ≤ s.weight_capacity :=
  (reachable_inv ⟨max_capacity, wtr, hb, ops, h⟩).2

theorem C1_total_weight_bounded_witness :
    ∃ s, runOps (newShard 2 unitWeighter keyHash) opsS2 = some s
      ∧ s.weight_hot + s.weight_cold ≤ s.weight_capacity :=
  ⟨_, rfl, C1_total_weight_bounded 2 unitWeighter keyHash opsS2 _ rfl⟩

/-- C2: an insert whose entry weight exceeds the cold budget
`W - H = weight_capacity - weight_target_hot` is rejected: it returns no
evicted entry and leaves the shard completely unchanged. -/
theorem C2_oversized_insert_rejected (s : Shard) (hash key version value : Nat)
    (h : s.weight_capacity - s.weight_target_hot < s.weighter key version value) :
    insert s hash key version value = some (none, s) := by
  simp only [insert]
  rw [if_pos h]

theorem C2_oversized_insert_rejected_witness :
    (newShard 100 (fun _ _ _ => 50) keyHash).weight_capacity
        - (newShard 100 (fun _ _ _ => 50) keyHash).weight_target_hot
      < (newShard 100 (fun _ _ _ => 50) keyHash).weighter 0 0 0
    ∧ insert (newShard 100 (fun _ _ _ => 50) keyHash) 0 0 0 0
      = some (none, newShard 100 (fun _ _ _ => 50) keyHash) :=
  ⟨by decide, C2_oversized_insert_rejected (newShard 100 (fun _ _ _ => 50) keyHash) 0 0 0 0
    (by decide)⟩

/-- C9: in every reachable state in which eviction is required (the total
resident weight exceeds the hot target, as at every `evict` call site in
the insert eviction loops), `evict` terminates and removes and returns
exactly one resident: the resident count drops by one and the removed
resident's weight accounts exactly for the weight decrease.  The proof
rests on the termination of the `advance_hot` and `advance_cold` clock
walks, whose fuel is shown sufficient because every sweep clears at least
one reference bit. -/
theorem C9_evict_terminates (max_capacity : Nat) (wtr : Nat → Nat → Nat → Nat)
    (hb : Nat → Nat → Nat) (ops : List Op) (s : Shard)
    (h : runOps (newShard max_capacity wtr hb) ops = some s)
    (hneed : s.weight_target_hot < s.weight_hot + s.weight_cold) :
    ∃ s1 r, evict s = some (s1, r)
      ∧ s1.num_hot + s1.num_cold + 1 = s.num_hot + s.num_cold
      ∧ s1.weight_hot + s1.weight_cold + weightOfR s r = s.weight_hot + s.weight_cold := by
  have hwf := (reachable_inv ⟨max_capacity, wtr, hb, ops, h⟩).1
  obtain ⟨out, hev⟩ := Option.isSome_iff_exists.mp (evict_isSome hwf hneed)
  obtain ⟨s1, r⟩ := out
  have hstep := evict_spec hev hwf
  exact ⟨s1, r, hev, hstep.numCount, hstep.total⟩

theorem C9_evict_terminates_witness :
    ∃ s, runOps (newShard 2 unitWeighter keyHash) [Op.insert 0 0 0, Op.insert 1 0 1] = some s
      ∧ s.weight_target_hot < s.weight_hot + s.weight_cold
      ∧ ∃ s1 r, evict s = some (s1, r)
        ∧ s1.num_hot + s1.num_cold + 1 = s.num_hot + s.num_cold
        ∧ s1.weight_hot + s1.weight_cold + weightOfR s r = s.weight_hot + s.weight_cold :=
  ⟨_, rfl, by decide,
    C9_evict_terminates 2 unitWeighter keyHash [Op.insert 0 0 0, Op.insert 1 0 1] _ rfl
      (by decide)⟩

/-- C10: in every reachable state, whenever a new insert is admitted
through the not-full branch without entering HOT (the conditions below are
exactly the guards of that branch), `num_hot` is at least one, so the
division by `num_hot` in the ghost-budget formula never divides by zero.
The reason is the one stated by the claim: every admissible weight is at
most `W - H ≤ H`, so the failed enter-hot test forces `weight_hot > 0`,
and a positive hot weight requires a nonempty hot ring. -/
theorem C10_ghost_budget_division_safe (max_capacity : Nat)
    (wtr : Nat → Nat → Nat → Nat) (hb : Nat → Nat → Nat) (ops : List Op) (s : Shard)
    (h : runOps (newShard max_capacity wtr hb) ops = some s)
    (key version value : Nat)
    (hfit : s.weighter key version value ≤ s.weight_capacity - s.weight_target_hot)
    (hnotfull : s.weight_hot + s.weight_cold + s.weighter key version value
      ≤ s.weight_capacity)
    (hnothot : s.weight_target_hot < s.weight_hot + s.weighter key version value) :
    1 ≤ s.num_hot := by
  have hwf := (reachable_inv ⟨max_capacity, wtr, hb, ops, h⟩).1
  have hwle : s.weighter key version value ≤ s.weight_target_hot :=
    le_trans hfit hwf.statBudget
  have hwh : 1 ≤ s.weight_hot := by omega
  have hne := hwf.hot_nonempty_of_weight hwh
  rw [hwf.numHot]
  cases hh : s.hotRing with
  | nil => exact absurd hh hne
  | cons a l => simp

theorem C10_ghost_budget_division_safe_witness :
    ∃ s, runOps (newShard 2 unitWeighter keyHash) [Op.insert 0 0 0] = some s
      ∧ s.weighter 1 0 1 ≤ s.weight_capacity - s.weight_target_hot
      ∧ s.weight_hot + s.weight_cold + s.weighter 1 0 1 ≤ s.weight_capacity
      ∧ s.weight_target_hot < s.weight_hot + s.weighter 1 0 1
      ∧ 1 ≤ s.num_hot :=
  ⟨_, rfl, by decide, by decide, by decide,
    C10_ghost_budget_division_safe 2 unitWeighter keyHash [Op.insert 0 0 0] _ rfl 1 0 1
      (by decide) (by decide) (by decide)⟩

set_option synthInstance.maxSize 1000

/-- C3 counterexample: the ghost budget `capacity_non_resident` is NOT set
exactly once.  On a capacity-400 shard it is first computed as 2 at the
first spill into COLD (after `opsGA`), and later recomputed as 1 by a
further not-full spill (after `opsGA ++ opsGB`), contradicting the claim
that it is never recomputed. -/
theorem C3_counterexample :
    (runOps (newShard 400 stepWeighter keyHash) opsGA).map
        (fun s => s.capacity_non_resident) = some 2
    ∧ (runOps (newShard 400 stepWeighter keyHash) (opsGA ++ opsGB)).map
        (fun s => s.capacity_non_resident) = some 1 := by
  constructor
  · decide
  · decide

/-- C3 (amended): the ghost budget is recomputed by EVERY insert that
admits a new entry into COLD through the not-full branch — at each such
insert, the resulting `capacity_non_resident` is
`((weight_hot + weight_hot / 8) / num_hot) / 2` computed from the current
state — not only at the first such spill. -/
theorem C3_ghost_budget_recomputed (s : Shard) (hash key version value : Nat)
    (out : Option Resident × Shard)
    (h : insert s hash key version value = some out)
    (hnew : search s hash key version = none)
    (hfit : ¬ (s.weight_capacity - s.weight_target_hot < s.weighter key version value))
    (hnotfull : ¬ (s.weight_capacity < s.weight_hot + s.weight_cold
      + s.weighter key version value))
    (hnothot : ¬ (s.weight_hot + s.weighter key version value ≤ s.weight_target_hot)) :
    out.2.capacity_non_resident = ((s.weight_hot + s.weight_hot / 8) / s.num_hot) / 2 := by
  simp only [insert] at h
  rw [if_neg hfit] at h
  rw [hnew] at h
  rw [if_neg hnotfull] at h
  rw [if_neg hnothot] at h
  injection h with h2
  subst h2
  rfl

theorem C3_ghost_budget_recomputed_witness :
    ∃ s out, runOps (newShard 2 unitWeighter keyHash) [Op.insert 0 0 0] = some s
      ∧ insert s 1 1 0 1 = some out
      ∧ out.2.capacity_non_resident = ((s.weight_hot + s.weight_hot / 8) / s.num_hot) / 2 :=
  ⟨_, _, rfl, rfl,
    C3_ghost_budget_recomputed _ 1 1 0 1 _ rfl (by decide) (by decide) (by decide) (by decide)⟩

/-- C4 counterexample: in a unit-weight cache of capacity 2, inserting
A = 0, B = 1, C = 2 in that order does NOT evict A and leaves NO ghost:
A is still present afterwards and the shard holds zero non-resident
entries (the ghost budget of such a cache is 0, so the ghost left by the
evicted cold entry B is trimmed immediately). -/
theorem C4_counterexample :
    (runOps (newShard 2 unitWeighter keyHash) opsS2).map
      (fun s => (peek s 0 0 0, s.num_non_resident)) = some (some 10, 0) := by
  decide

/-- C4 (amended): capacity 2, unit weights, insert A = 0, B = 1, C = 2:
the eviction victim is the cold entry B (A stays resident as Hot), and no
ghost survives because the ghost budget is 0.  A subsequent insert of A
finds A resident, updates it in place (it stays Hot and remains
retrievable with the new value), and returns the previous A resident as
the eviction output, not a displaced other entry. -/
theorem C4_scenario_S2 :
    (runOps (newShard 2 unitWeighter keyHash) opsS2).map (fun s =>
      (peek s 0 0 0, peek s 1 0 1, s.num_non_resident,
        (insert s 0 0 0 99).map (fun p => (p.1, peek p.2 0 0 0))))
    = some (some 10, (none : Option Nat), 0,
        some (some ({ key := 0, version := 0, value := 10, state := ResidentState.Hot, referenced := false } : Resident), some 99)) := by
  decide

/-- C7: the invariant `num_ghost ≤ G when G > 0` fails on the code, even
though `evict` debug-asserts it: after the operation sequence
`opsGA ++ opsGB` on a capacity-400 shard, the shard holds 2 non-resident
entries while the recomputed ghost budget is 1.  The next insert that
needs an eviction runs `evict` in this state, whose
`debug_assert!(self.num_non_resident <= self.capacity_non_resident)`
fails. -/
theorem C7_ghost_budget_invariant_broken :
    (runOps (newShard 400 stepWeighter keyHash) (opsGA ++ opsGB)).map
      (fun s => (s.num_non_resident, s.capacity_non_resident)) = some (2, 1) := by
  decide

/-- A weighter whose weight is the cached value itself.  Used to change an
entry's weight by re-inserting the same key with a new value. -/
def valWeighter : Nat → Nat → Nat → Nat := fun _ _ v => v

/-- 200 weight-1 inserts that exactly fill a capacity-200 cache. -/
def opsC6 : List Op := (List.range 200).map (fun i => Op.insert i 0 1)

/-- A small shard holding a single ghost with hash 7, used to witness the
ghost-resurrection branch of `insert_existing`. -/
def ghostShard : Shard :=
  { hashB := keyHash
    weighter := unitWeighter
    entries := [(0, Entry.ghost 7)]
    nextTok := 1
    mapIdx := [(7, 0)]
    hotRing := []
    coldRing := []
    ghostRing := [0]
    weight_target_hot := 9
    weight_capacity := 10
    weight_hot := 0
    weight_cold := 0
    num_hot := 0
    num_cold := 0
    num_non_resident := 1
    capacity_non_resident := 2
    hits := 0
    misses := 0 }

/-- A small shard holding a single hot resident, used to witness the
update-in-place branch of `insert_existing`. -/
def resShard : Shard :=
  { hashB := keyHash
    weighter := unitWeighter
    entries := [(0, Entry.res { key := 3, version := 0, value := 5, state := ResidentState.Hot, referenced := false })]
    nextTok := 1
    mapIdx := [(3, 0)]
    hotRing := [0]
    coldRing := []
    ghostRing := []
    weight_target_hot := 9
    weight_capacity := 10
    weight_hot := 1
    weight_cold := 0
    num_hot := 1
    num_cold := 0
    num_non_resident := 0
    capacity_non_resident := 0
    hits := 0
    misses := 0 }

/-- C5: if `insert` finds the probed hash at a ghost slot (the new entry not
being oversized, and no drain eviction being needed afterwards), it replaces
the slot with a new `Hot` resident with a cleared reference bit, decrements
`num_non_resident`, increments `num_hot` and `weight_hot` by the new
entry's weight, and relinks the slot from the GHOST ring to the HOT ring. -/
theorem C5_ghost_resurrection (s : Shard) (hash key version value idx g : Nat)
    (hfit : ¬ (s.weight_capacity - s.weight_target_hot < s.weighter key version value))
    (hsrch : search s hash key version = some idx)
    (hg : slabGet s.entries idx = some (Entry.ghost g))
    (hnoev : ¬ (s.weight_capacity < s.weight_hot + s.weighter key version value + s.weight_cold)) :
    insert s hash key version value
      = some (none,
        { s with
          entries := slabSet s.entries idx
            (Entry.res { key := key, version := version, value := value, state := ResidentState.Hot, referenced := false })
          num_non_resident := s.num_non_resident - 1
          num_hot := s.num_hot + 1
          weight_hot := s.weight_hot + s.weighter key version value
          ghostRing := s.ghostRing.erase idx
          hotRing := s.hotRing ++ [idx] }) := by
  simp only [insert]
  rw [if_neg hfit]
  simp only [hsrch]
  simp only [insert_existing, hg]
  simp only [insertExistingLoop]
  split
  · rename_i hlt
    exact absurd hlt hnoev
  · rfl

theorem C5_ghost_resurrection_witness :
    insert ghostShard 7 3 0 5
      = some (none,
        { ghostShard with
          entries := slabSet ghostShard.entries 0
            (Entry.res { key := 3, version := 0, value := 5, state := ResidentState.Hot, referenced := false })
          num_non_resident := ghostShard.num_non_resident - 1
          num_hot := ghostShard.num_hot + 1
          weight_hot := ghostShard.weight_hot + ghostShard.weighter 3 0 5
          ghostRing := ghostShard.ghostRing.erase 0
          hotRing := ghostShard.hotRing ++ [0] }) :=
  C5_ghost_resurrection ghostShard 7 3 0 5 0 7 (by decide) (by decide) (by decide) (by decide)

/-- C6 counterexample: the "evicted" output of an update-in-place insert is
not always the previous resident.  After exactly filling a capacity-200
cache with 200 entries of weight 1, re-inserting key 0 with weight 2
overflows the capacity; the trailing drain loop of `insert_existing` then
evicts the cold entry with key 198 and returns it, not the previous key-0
resident (which is still resident with value 1 just before the call). -/
theorem C6_counterexample :
    (runOps (newShard 200 valWeighter keyHash) opsC6).map (fun s =>
      (peek s 0 0 0, (insert s 0 0 0 2).map (fun p => p.1)))
    = some (some 1,
        some (some { key := 198, version := 0, value := 1, state := ResidentState.ColdInTest, referenced := false })) := by
  decide

/-- C6 (amended): if `insert` finds the probed (key, version) at an existing
resident, the new entry is not oversized, and the weight change does not
push the total resident weight above the capacity, then it replaces key,
version and value in place, preserves the entry's state, adjusts the owning
ring's weight by the weight delta, sets the reference bit, and returns the
previous resident as the eviction output.  (When the weight change
overflows the capacity, the drain loop returns its last victim instead —
see the counterexample.) -/
theorem C6_resident_update_in_place (s : Shard) (hash key version value idx : Nat) (r : Resident)
    (hfit : ¬ (s.weight_capacity - s.weight_target_hot < s.weighter key version value))
    (hsrch : search s hash key version = some idx)
    (hr : slabGet s.entries idx = some (Entry.res r))
    (hnoev : ¬ (s.weight_capacity <
      (if r.state = ResidentState.Hot then s.weight_hot - weightOfR s r + s.weighter key version value else s.weight_hot)
      + (if r.state = ResidentState.Hot then s.weight_cold
         else s.weight_cold - weightOfR s r + s.weighter key version value))) :
    insert s hash key version value
      = some (some r,
        { s with
          weight_hot := if r.state = ResidentState.Hot
            then s.weight_hot - weightOfR s r + s.weighter key version value else s.weight_hot
          weight_cold := if r.state = ResidentState.Hot then s.weight_cold
            else s.weight_cold - weightOfR s r + s.weighter key version value
          entries := slabSet s.entries idx
            (Entry.res { key := key, version := version, value := value, state := r.state, referenced := true }) }) := by
  simp only [insert]
  rw [if_neg hfit]
  simp only [hsrch]
  simp only [insert_existing, hr]
  by_cases hst : r.state = ResidentState.Hot
  · simp only [if_pos hst] at hnoev ⊢
    simp only [insertExistingLoop]
    split
    · rename_i hlt
      exact absurd hlt hnoev
    · rfl
  · simp only [if_neg hst] at hnoev ⊢
    simp only [insertExistingLoop]
    split
    · rename_i hlt
      exact absurd hlt hnoev
    · rfl

theorem C6_resident_update_in_place_witness :
    insert resShard 3 3 0 42
      = some (some { key := 3, version := 0, value := 5, state := ResidentState.Hot, referenced := false },
        { resShard with
          weight_hot := resShard.weight_hot - 1 + 1
          entries := slabSet resShard.entries 0
            (Entry.res { key := 3, version := 0, value := 42, state := ResidentState.Hot, referenced := true }) }) :=
  C6_resident_update_in_place resShard 3 3 0 42 0
    { key := 3, version := 0, value := 5, state := ResidentState.Hot, referenced := false }
    (by decide) (by decide) (by decide) (by decide)

/-- Number of `get` calls in an operation sequence. -/
def numGets : List Op → Nat
  | [] => 0
  | Op.get _ _ :: rest => numGets rest + 1
  | _ :: rest => numGets rest

theorem numGets_le_length (ops : List Op) : numGets ops ≤ ops.length := by
  induction ops with
  | nil => simp [numGets]
  | cons op rest ih => cases op <;> simp only [numGets, List.length_cons] <;> omega

/-- One `get` call bumps exactly one of the two counters by one, as long as
the `u64` counters do not wrap. -/
theorem get_counts (s : Shard) (hash key version : Nat)
    (hlt : s.hits + s.misses + 1 < 2 ^ 64) :
    (get s hash key version).2.hits + (get s hash key version).2.misses
      = s.hits + s.misses + 1 := by
  rw [get]
  split
  · rename_i idx hse
    split
    · rename_i r hget
      show (s.hits + 1) % 2 ^ 64 + s.misses = s.hits + s.misses + 1
      rw [Nat.mod_eq_of_lt (by omega)]
      omega
    · show s.hits + (s.misses + 1) % 2 ^ 64 = s.hits + s.misses + 1
      rw [Nat.mod_eq_of_lt (by omega)]
      omega
  · show s.hits + (s.misses + 1) % 2 ^ 64 = s.hits + s.misses + 1
    rw [Nat.mod_eq_of_lt (by omega)]
    omega

/-- Running a well-formed shard through a sequence of operations adds
exactly the number of `get` calls to `hits + misses`, as long as the `u64`
counters do not wrap. -/
theorem runOps_counts : ∀ (ops : List Op) (s s1 : Shard), runOps s ops = some s1 →
    WF s → s.weight_hot + s.weight_cold ≤ s.weight_capacity →
    s.hits + s.misses + numGets ops < 2 ^ 64 →
    s1.hits + s1.misses = s.hits + s.misses + numGets ops := by
  intro ops
  induction ops with
  | nil =>
    intro s s1 h _ _ _
    cases h
    simp [numGets]
  | cons op rest ih =>
    intro s s1 h hs hcap hlt
    simp only [runOps] at h
    split at h
    · rename_i s2 hop
      obtain ⟨hwf2, hcap2⟩ := applyOp_preserves hop hs hcap
      cases op with
      | insert k v val =>
        simp only [applyOp] at hop
        cases hi : insert s (s.hashB k v) k v val with
        | none => rw [hi] at hop; simp at hop
        | some out =>
          rw [hi] at hop
          have h2 : out.2 = s2 := Option.some.inj hop
          subst h2
          obtain ⟨_, _, hh, hm⟩ := insert_preserves hi hs hcap rfl
          simp only [numGets] at hlt ⊢
          have hrec := ih _ _ h hwf2 hcap2 (by rw [hh, hm]; omega)
          rw [hrec, hh, hm]
      | remove k v =>
        simp only [applyOp] at hop
        cases hi : remove s (s.hashB k v) k v with
        | none => rw [hi] at hop; simp at hop
        | some out =>
          rw [hi] at hop
          have h2 : out.2 = s2 := Option.some.inj hop
          subst h2
          obtain ⟨_, _, _, hh, hm⟩ := remove_preserves hi hs rfl
          simp only [numGets] at hlt ⊢
          have hrec := ih _ _ h hwf2 hcap2 (by rw [hh, hm]; omega)
          rw [hrec, hh, hm]
      | get k v =>
        simp only [applyOp] at hop
        injection hop with h2
        subst h2
        simp only [numGets] at hlt ⊢
        have hg := get_counts s (s.hashB k v) k v (by omega)
        have hrec := ih _ _ h hwf2 hcap2 (by rw [hg]; omega)
        rw [hrec, hg]
        omega
      | peek k v =>
        simp only [applyOp] at hop
        injection hop with h2
        subst h2
        simp only [numGets] at hlt ⊢
        exact ih _ _ h hwf2 hcap2 hlt
      | reserve n =>
        simp only [applyOp, reserve] at hop
        injection hop with h2
        subst h2
        simp only [numGets] at hlt ⊢
        exact ih _ _ h hwf2 hcap2 hlt
    · simp at h

/-- C8: a `get` call either hits a resident — setting its reference bit,
bumping `hits` and returning the value — or misses (no index hit, or an
index hit that does not land on a resident) — bumping `misses` and
returning nothing; consequently, over any operation sequence run from a
fresh shard whose length keeps the `u64` counters from wrapping,
`hits + misses` equals the number of `get` calls. -/
theorem C8_hit_miss_accounting :
    (∀ (s : Shard) (hash key version : Nat),
      (∃ idx r, search s hash key version = some idx
        ∧ slabGet s.entries idx = some (Entry.res r)
        ∧ get s hash key version
          = (some r.value,
             { s with entries := slabSet s.entries idx (Entry.res { r with referenced := true }), hits := (s.hits + 1) % 2 ^ 64 }))
      ∨ ((search s hash key version = none
            ∨ ∃ idx, search s hash key version = some idx
                ∧ ∀ r, slabGet s.entries idx ≠ some (Entry.res r))
          ∧ get s hash key version
            = (none, { s with misses := (s.misses + 1) % 2 ^ 64 })))
    ∧ (∀ (cap : Nat) (wtr : Nat → Nat → Nat → Nat) (hb : Nat → Nat → Nat)
        (ops : List Op) (s : Shard), ops.length < 2 ^ 64 →
        runOps (newShard cap wtr hb) ops = some s →
        s.hits + s.misses = numGets ops) := by
  constructor
  · intro s hash key version
    cases hse : search s hash key version with
    | some idx =>
      cases hget : slabGet s.entries idx with
      | some e =>
        cases e with
        | res r =>
          left
          exact ⟨idx, r, rfl, hget, by simp only [get, hse, hget]⟩
        | ghost g =>
          right
          refine ⟨Or.inr ⟨idx, rfl, ?_⟩, by simp only [get, hse, hget]⟩
          intro r hr
          rw [hget] at hr
          simp at hr
      | none =>
        right
        refine ⟨Or.inr ⟨idx, rfl, ?_⟩, by simp only [get, hse, hget]⟩
        intro r hr
        rw [hget] at hr
        simp at hr
    | none =>
      right
      exact ⟨Or.inl rfl, by simp only [get, hse]⟩
  · intro cap wtr hb ops s hlen hrun
    have hle := numGets_le_length ops
    have h0 := runOps_counts ops _ s hrun (newShard_WF cap wtr hb)
      (by simp [newShard]) ?_
    · obtain ⟨_, _, hh0, hm0⟩ := newShard_weights cap wtr hb
      rw [hh0, hm0] at h0
      simpa using h0
    · obtain ⟨_, _, hh0, hm0⟩ := newShard_weights cap wtr hb
      rw [hh0, hm0]
      omega

theorem C8_hit_miss_accounting_witness :
    ∃ s, runOps (newShard 2 unitWeighter keyHash)
        [Op.get 0 0, Op.insert 0 0 5, Op.get 0 0] = some s
      ∧ s.hits + s.misses = numGets [Op.get 0 0, Op.insert 0 0 5, Op.get 0 0] :=
  ⟨_, rfl, C8_hit_miss_accounting.2 2 unitWeighter keyHash _ _ (by decide) rfl⟩

end QuickCache
